import Mathlib

/-!
Verification of the zcrc CRC library (`include/zcrc/zcrc.hpp`).

This file shallowly embeds the algorithmic kernel of the library:
machine integers of the C++ storage types (`std::uint8_t` .. `std::uint64_t`)
become `Nat` with explicit truncation `% 2 ^ digits` exactly where the C++
narrows or wraps, byte spans become `List Nat` (each byte taken mod 256 where
the C++ casts to `std::uint8_t`), and the parallel driver returns `Option`
(`none` models the division by zero the C++ would perform).  All definitions
are translated from the source; the mathematical step functions used in
proofs are introduced separately further down.
-/

namespace Zcrc

/-- Number of bits in `detail::least_uint<w>`, the narrowest of the four
unsigned storage types holding `w` bits (zcrc.hpp lines 202-210). -/
def digitsOf (w : Nat) : Nat :=
  if w ≤ 8 then 8 else if w ≤ 16 then 16 else if w ≤ 32 then 32 else 64

/-- Embedding of `detail::bit_is_set` (zcrc.hpp lines 128-131). -/
def bit_is_set (n b : Nat) : Bool :=
  n &&& (1 <<< b) != 0

/-- Fuel-driven helper for `reflect`; the fuel only makes the recursion
structural, it is never exhausted because each step removes 10 bits. -/
def reflectAux : Nat → Nat → Nat → Nat
  | 0, _, _ => 0
  | fuel + 1, n, b =>
    if b ≤ 10 then
      ((((n * 0x0040100401004010) % 2 ^ 64 &&& 0x0420841082104200) * 0x0002002002002002) % 2 ^ 64)
        >>> (64 - b)
    else
      (reflectAux fuel (n &&& 0x3FF) 10 <<< (b - 10)) ||| reflectAux fuel (n >>> 10) (b - 10)

/-- Embedding of `detail::reflect` (zcrc.hpp lines 134-167): reflect the
bottom `b` bits of `n` using the pseudo-SIMD multiply trick, whose
multiplications are performed in 64-bit unsigned arithmetic. -/
def reflect (n b : Nat) : Nat :=
  reflectAux (b + 1) n b

/-- Embedding of `detail::lshift` (zcrc.hpp lines 179-188): a generalized
left shift on a `digits`-bit unsigned value; out-of-range shifts give 0 and
negative shifts shift right.  The `% 2 ^ digits` models the wrap-around of
the C++ storage type. -/
def lshift (digits n : Nat) (b : Int) : Nat :=
  if digits ≤ b.natAbs then 0
  else if b < 0 then n >>> b.natAbs
  else (n <<< b.natAbs) % 2 ^ digits

/-- Embedding of `detail::rshift` (zcrc.hpp lines 191-194). -/
def rshift (digits n : Nat) (b : Int) : Nat :=
  lshift digits n (-b)

/-- Embedding of `detail::bottom_n_mask` (zcrc.hpp lines 196-199). -/
def bottom_n_mask (digits width : Nat) : Nat :=
  rshift digits (2 ^ digits - 1) ((digits : Int) - (width : Int))

/-- Embedding of `detail::clmul_over_field` (zcrc.hpp lines 236-252):
carry-less multiplication of `lhs` and `rhs` modulo the generator
polynomial, in the orientation selected by `RefIn`.  The register `r` lives
in a `digitsOf W`-bit storage type, hence the truncation each iteration. -/
def clmul_over_field (W Poly : Nat) (RefIn : Bool) (lhs rhs : Nat) : Nat :=
  let D := digitsOf W
  let r := (List.range W).foldl (fun r i =>
    if RefIn then
      ((r >>> 1) ^^^ (cond (bit_is_set r 0) (reflect Poly W) 0) ^^^
        (cond (bit_is_set lhs i) rhs 0)) % 2 ^ D
    else
      ((r <<< 1) ^^^ (cond (bit_is_set r (W - 1)) Poly 0) ^^^
        (cond (bit_is_set lhs (W - 1 - i)) rhs 0)) % 2 ^ D) 0
  r &&& bottom_n_mask D W

/-- Embedding of `detail::folding_constants` (zcrc.hpp lines 254-262):
entry `k` is `x^(8·2^k)` (suitably seeded); each entry is the carry-less
square of the previous one, starting from the carry-less square of the
orientation-specific seed. -/
def folding_constants (W Poly : Nat) (RefIn : Bool) : Nat → Nat
  | 0 =>
    let seed := 1 <<< (if RefIn then W - 5 else 4)
    clmul_over_field W Poly RefIn seed seed
  | k + 1 =>
    let f := folding_constants W Poly RefIn k
    clmul_over_field W Poly RefIn f f

/-- Loop body of `detail::process_zero_bytes_fn_impl` for `Width ≥ 8`
(zcrc.hpp lines 270-276): for each set bit of `n`, multiply the register by
the corresponding folding constant. -/
def process_zero_bytes_core (W Poly : Nat) (RefIn : Bool) (state n : Nat) : Nat :=
  (List.range 64).foldl (fun s i =>
    if bit_is_set n i then clmul_over_field W Poly RefIn s (folding_constants W Poly RefIn i)
    else s) state

/-- Embedding of `detail::process_zero_bytes_fn_impl` (zcrc.hpp lines
264-278), including the lift of widths below 8 to width 8 with the
polynomial shifted up. -/
def process_zero_bytes_fn_impl (W Poly : Nat) (RefIn : Bool) (state n : Nat) : Nat :=
  if W < 8 then process_zero_bytes_core 8 (Poly <<< (8 - W)) RefIn state n
  else process_zero_bytes_core W Poly RefIn state n

/-- Fuel-driven bit width; behaves as `std::bit_width` for every argument
below `2 ^ 64`, which covers every polynomial the library accepts. -/
def bitWidthAux : Nat → Nat → Nat
  | 0, _ => 0
  | fuel + 1, n => if n = 0 then 0 else bitWidthAux fuel (n / 2) + 1

/-- Embedding of `std::bit_width` as used in the table element type
(zcrc.hpp line 293). -/
def bitWidth (n : Nat) : Nat :=
  bitWidthAux 64 n

/-- Bit width of the element type of slice `s` of the lookup table
(zcrc.hpp line 293): reflected tables store full-width entries, forward
tables store `min(W, 7 + bit_width(Poly) + 8·s)` bits. -/
def sliceElemWidth (W Poly : Nat) (RefIn : Bool) (s : Nat) : Nat :=
  if RefIn then W else min W (7 + bitWidth Poly + 8 * s)

/-- One update of the running register `r` of the table generator
(zcrc.hpp lines 296-302), truncated to the storage type of the entries of
slice `s` because the C++ routes the value through the table element. -/
def tblStep (W Poly : Nat) (RefIn : Bool) (s r : Nat) : Nat :=
  let ED := digitsOf (sliceElemWidth W Poly RefIn s)
  if RefIn then
    ((r >>> 1) ^^^ cond (bit_is_set r 0) (reflect Poly W) 0) % 2 ^ ED
  else
    ((r <<< 1) ^^^ cond (bit_is_set r (W - 1)) Poly 0) % 2 ^ ED

/-- The running register of `detail::tables` after `k` updates; the
register is shared across all slices (zcrc.hpp lines 288-311), and update
number `k + 1` happens while filling slice `k / 8`. -/
def tblChain (W Poly : Nat) (RefIn : Bool) : Nat → Nat
  | 0 => if RefIn then 1 else 1 <<< (W - 1)
  | k + 1 => tblStep W Poly RefIn (k / 8) (tblChain W Poly RefIn k)

/-- We model a `std::array` of 256 unsigned entries as a single natural
number holding 256 cells of 64 bits each (64 bits accommodates every
storage type `detail::least_uint` can pick).  `arrGet t i` reads cell
`i`. -/
def arrGet (t i : Nat) : Nat :=
  (t >>> (64 * i)) &&& (2 ^ 64 - 1)

/-- Write value `v` (which must fit in 64 bits) into cell `i` of the packed
array `t`. -/
def arrSet (t i v : Nat) : Nat :=
  t ^^^ ((arrGet t i ^^^ v) <<< (64 * i))

/-- Step 1 of the table build for slice `s` (zcrc.hpp lines 294-302):
entry 0 is zero and the power-of-two entries receive consecutive values of
the running register. -/
def tblPhase1 (W Poly : Nat) (RefIn : Bool) (s : Nat) : Nat :=
  (List.range 8).foldl (fun t i =>
    arrSet t (if RefIn then 1 <<< (7 - i) else 1 <<< i) (tblChain W Poly RefIn (8 * s + i + 1)))
    0

/-- Step 2 of the table build (zcrc.hpp lines 303-308): fill the remaining
entries by linearity, `table[i ^ j] = table[i] ^ table[j]`. -/
def tblFill (t0 : Nat) : Nat :=
  (List.range 7).foldl (fun t p =>
    let i := 2 <<< p
    (List.range (i - 1)).foldl (fun t j1 =>
      let j := j1 + 1
      arrSet t (i ^^^ j) ((arrGet t i) ^^^ (arrGet t j))) t) t0

/-- The complete 256-entry lookup table of slice `s`
(`std::get<s>(detail::tables<W, Poly, RefIn, N>)`, zcrc.hpp lines 288-311;
each slice's table does not depend on the slice count `N`). -/
def tbl (W Poly : Nat) (RefIn : Bool) (s : Nat) : Nat :=
  tblFill (tblPhase1 W Poly RefIn s)

/-- Embedding of the `fold` lambda of the slice-by-N kernel
(zcrc.hpp lines 326-338) applied to an index sequence of size `M`: consume
the `M` bytes of `chunk`, folding each through the table of its slice and
shifting the old register out. -/
def foldBlock (W Poly : Nat) (RefIn : Bool) (M crc : Nat) (chunk : List Nat) : Nat :=
  let D := digitsOf W
  if RefIn then
    (List.range M).foldl (fun acc B =>
      acc ^^^ arrGet (tbl W Poly RefIn (M - 1 - B))
        (((rshift D crc (8 * (B : Int))) &&& 0xFF) ^^^ (chunk.getD B 0 % 256)))
      (rshift D crc ((M : Int) * 8))
  else
    (List.range M).foldl (fun acc B =>
      acc ^^^ arrGet (tbl W Poly RefIn (M - 1 - B))
        (((rshift D crc ((W : Int) - 8 * ((B : Int) + 1))) &&& 0xFF) ^^^ (chunk.getD B 0 % 256)))
      (lshift D crc ((M : Int) * 8))

/-- The main loop of the sized slice-by-N kernel (zcrc.hpp lines 353-355):
run `blocks` full folds of `N` bytes, returning the register and the
remaining bytes. -/
def sliceByMain (W Poly : Nat) (RefIn : Bool) (N : Nat) :
    Nat → Nat → List Nat → Nat × List Nat
  | crc, 0, bs => (crc, bs)
  | crc, blocks + 1, bs =>
    sliceByMain W Poly RefIn N (foldBlock W Poly RefIn N crc (bs.take N)) blocks (bs.drop N)

/-- Embedding of the `fold_by_powers_of_two` lambda (zcrc.hpp lines
343-350): for each set bit `P` of `tail_len` (in ascending order of `P`),
fold a block of `2 ^ P` bytes and advance. -/
def sliceByTail (W Poly : Nat) (RefIn : Bool) (N tail_len crc : Nat) (bs : List Nat) : Nat :=
  ((List.range (bitWidth (N - 1))).foldl (fun st P =>
    if tail_len &&& (1 <<< P) != 0 then
      (foldBlock W Poly RefIn (1 <<< P) st.1 (st.2.take (1 <<< P)), st.2.drop (1 <<< P))
    else st) ((crc, bs) : Nat × List Nat)).1

/-- Embedding of the sized, random-access overload of
`detail::process_fn_impl` for `slice_by_t<N>` (zcrc.hpp lines 324-359):
main loop, powers-of-two tail, and the final mask to the significant
width. -/
def process_fn_impl_slice (W Poly : Nat) (RefIn : Bool) (N crc : Nat) (bytes : List Nat) : Nat :=
  let D := digitsOf W
  let tail_len := bytes.length % N
  let blocks := (bytes.length - tail_len) / N
  let st := sliceByMain W Poly RefIn N crc blocks bytes
  (sliceByTail W Poly RefIn N tail_len st.1 st.2) &&& bottom_n_mask D W

/-- The contiguous sub-span `[a, b)` of a byte list. -/
def listExtract (bs : List Nat) (a b : Nat) : List Nat :=
  (bs.drop a).take (b - a)

/-- Embedding of the runtime branch of `detail::process_fn_impl` for
`parallel_t<A>` with inner algorithm `slice_by_t<N>` (zcrc.hpp lines
393-417).  `T` is `std::jthread::hardware_concurrency()`.  The C++ computes
`len % chunk_length` with `chunk_length = len / T`; when `T = 0` or
`len / T = 0` that is a division by zero, which we model as `none`. -/
def process_fn_impl_parallel (W Poly : Nat) (RefIn : Bool) (N T state : Nat)
    (bytes : List Nat) : Option Nat :=
  let len := bytes.length
  if T = 0 ∨ len / T = 0 then none
  else
    let chunk_length := len / T
    some ((List.range T).foldl (fun acc i =>
      let chunk_begin := if i = 0 then 0 else len % chunk_length + i * chunk_length
      let chunk_end := len % chunk_length + (i + 1) * chunk_length
      acc ^^^ process_zero_bytes_fn_impl W Poly RefIn
        (process_fn_impl_slice W Poly RefIn N (if i = 0 then state else 0)
          (listExtract bytes chunk_begin chunk_end))
        (len - chunk_end)) 0)

/-- A CRC parametrization: the template arguments of `zcrc::crc`
(zcrc.hpp lines 214-222). -/
structure CrcParams where
  width : Nat
  poly : Nat
  init : Nat
  refin : Bool
  refout : Bool
  xorout : Nat

/-- The constraints `zcrc::crc` enforces with `static_assert`
(zcrc.hpp lines 621-625). -/
def CrcParams.Valid (P : CrcParams) : Prop :=
  0 < P.width ∧ P.width ≤ 64 ∧ P.poly < 2 ^ P.width ∧ P.init < 2 ^ P.width ∧
    P.xorout < 2 ^ P.width

/-- The width the kernel actually runs at: widths below 8 are lifted to 8
(`Width < 8 ? 8 : Width`, zcrc.hpp line 441). -/
def effWidth (P : CrcParams) : Nat :=
  if P.width < 8 then 8 else P.width

/-- The polynomial the kernel actually runs with
(`Width < 8 ? Poly << (8 - Width) : Poly`, zcrc.hpp line 441). -/
def effPoly (P : CrcParams) : Nat :=
  if P.width < 8 then P.poly <<< (8 - P.width) else P.poly

/-- The register of a default-constructed (initialized) state
(zcrc.hpp lines 550-558). -/
def initReg (P : CrcParams) : Nat :=
  if P.refin then reflect P.init P.width
  else if P.width < 8 then P.init <<< (8 - P.width) else P.init

/-- The register of a `zero_init` state (zcrc.hpp line 635). -/
def zeroReg : Nat := 0

/-- `zcrc::process` with algorithm `slice_by<N>` on a contiguous sized
span: the dispatch wrapper (zcrc.hpp lines 435-449) lifts the width and
polynomial and hands the register to the kernel. -/
def processSlice (P : CrcParams) (N reg : Nat) (bytes : List Nat) : Nat :=
  process_fn_impl_slice (effWidth P) (effPoly P) P.refin N reg bytes

/-- `zcrc::process` with algorithm `parallel<slice_by<N>>` on a contiguous
sized span at runtime, with `T` hardware threads. -/
def processParallel (P : CrcParams) (N T reg : Nat) (bytes : List Nat) : Option Nat :=
  process_fn_impl_parallel (effWidth P) (effPoly P) P.refin N T reg bytes

/-- `zcrc::process_zero_bytes` (zcrc.hpp lines 280-286). -/
def processZeroBytes (P : CrcParams) (reg n : Nat) : Nat :=
  process_zero_bytes_fn_impl P.width P.poly P.refin reg n

/-- `zcrc::combine` (zcrc.hpp lines 226-233): XOR of the registers. -/
def combine (lhs rhs : Nat) : Nat :=
  lhs ^^^ rhs

/-- `zcrc::finalize` (zcrc.hpp lines 481-495). -/
def finalize (P : CrcParams) (reg : Nat) : Nat :=
  let r1 := if P.width < 8 && !P.refin then reg >>> (8 - P.width) else reg
  let r2 := if P.refin != P.refout then reflect r1 P.width else r1
  r2 ^^^ P.xorout

/-- The precomputed residue of `detail::is_valid_fn` (zcrc.hpp lines
501-517): stream `width` zero bits through the forward shift update
starting from `XOROut`, mask, then orient like the initial register. -/
def residue (P : CrcParams) : Nat :=
  let D := digitsOf P.width
  let r := (List.range P.width).foldl (fun r _ =>
    ((r <<< 1) ^^^ cond (bit_is_set r (P.width - 1)) P.poly 0) % 2 ^ D) P.xorout
  let rm := r &&& bottom_n_mask D P.width
  if P.refin then reflect rm P.width
  else if P.width < 8 then rm <<< (8 - P.width)
  else rm

/-- `zcrc::is_valid` on a state (zcrc.hpp lines 497-521). -/
def isValidReg (P : CrcParams) (reg : Nat) : Bool :=
  reg == residue P

/-- `P::compute(slice_by<N>, bytes)` (zcrc.hpp lines 568-592). -/
def compute (P : CrcParams) (N : Nat) (bytes : List Nat) : Nat :=
  finalize P (processSlice P N (initReg P) bytes)

/-- `P::compute(bytes)` with the default algorithm `slice_by<8>`
(zcrc.hpp line 121). -/
def computeDefault (P : CrcParams) (bytes : List Nat) : Nat :=
  compute P 8 bytes

/-- `P::is_valid(bytes)` with the default algorithm (zcrc.hpp lines
594-618). -/
def isValidBytes (P : CrcParams) (bytes : List Nat) : Bool :=
  isValidReg P (processSlice P 8 (initReg P) bytes)

/-- `zcrc::crc32c` (zcrc.hpp line 742). -/
def crc32c : CrcParams :=
  ⟨32, 0x1EDC6F41, 0xFFFFFFFF, true, true, 0xFFFFFFFF⟩

/-- `zcrc::crc16_modbus` (zcrc.hpp line 711). -/
def crc16_modbus : CrcParams :=
  ⟨16, 0x8005, 0xFFFF, true, true, 0x0000⟩

/-- `zcrc::crc64_xz` (zcrc.hpp line 755). -/
def crc64_xz : CrcParams :=
  ⟨64, 0x42F0E1EBA9EA3693, 0xFFFFFFFFFFFFFFFF, true, true, 0xFFFFFFFFFFFFFFFF⟩

/-- `zcrc::crc10_atm` (zcrc.hpp line 679). -/
def crc10_atm : CrcParams :=
  ⟨10, 0x233, 0x000, false, false, 0x000⟩

/-- `zcrc::crc10_gsm` (zcrc.hpp line 681). -/
def crc10_gsm : CrcParams :=
  ⟨10, 0x175, 0x000, false, false, 0x3FF⟩

/-- `zcrc::crc16_arc` (zcrc.hpp line 693). -/
def crc16_arc : CrcParams :=
  ⟨16, 0x8005, 0x0000, true, true, 0x0000⟩

/-- The nine-byte standard test input `"123456789"`. -/
def checkInput : List Nat :=
  [0x31, 0x32, 0x33, 0x34, 0x35, 0x36, 0x37, 0x38, 0x39]

/-!
### Mathematical reference layer

The proofs relate the table-driven kernel to a bit-by-bit reference
semantics: one Galois LFSR step per input bit.  `stepR` is the reflected
update (shift right, conditionally XOR the reflected polynomial), `stepF`
the forward update (shift left within `W` bits, conditionally XOR the
polynomial).  A byte is eight steps with the byte XORed into the register
at the byte entry position of the respective orientation.
-/

/-- One reflected LFSR step; `R` is the reflected polynomial. -/
def stepR (R v : Nat) : Nat :=
  (v >>> 1) ^^^ cond (v.testBit 0) R 0

/-- One forward LFSR step on a `W`-bit register. -/
def stepF (W Poly v : Nat) : Nat :=
  ((v <<< 1) % 2 ^ W) ^^^ cond (v.testBit (W - 1)) Poly 0

/-- Reference semantics of one input byte, reflected orientation. -/
def byteStepR (R crc b : Nat) : Nat :=
  (stepR R)^[8] (crc ^^^ b % 256)

/-- Reference semantics of one input byte, forward orientation on `W ≥ 8`
bits: the byte enters at the top of the register. -/
def byteStepF (W Poly crc b : Nat) : Nat :=
  (stepF W Poly)^[8] (crc ^^^ ((b % 256) <<< (W - 8)))

/-- Reference semantics of a whole byte string in either orientation. -/
def crcRef (W Poly : Nat) (RefIn : Bool) (crc : Nat) (bs : List Nat) : Nat :=
  if RefIn then bs.foldl (byteStepR (reflect Poly W)) crc
  else bs.foldl (byteStepF W Poly) crc

/-- XOR of `f 0, …, f (M-1)`. -/
def xorSum (f : Nat → Nat) (M : Nat) : Nat :=
  (List.range M).foldl (fun a B => a ^^^ f B) 0

/-! ### Basic bit lemmas -/

theorem bit_is_set_eq (n b : Nat) : bit_is_set n b = n.testBit b := by
  unfold bit_is_set
  rw [Nat.one_shiftLeft, Nat.and_two_pow]
  rcases h : n.testBit b with _ | _ <;> simp [h]

theorem xor_shiftRight (a b k : Nat) : (a ^^^ b) >>> k = a >>> k ^^^ b >>> k := by
  apply Nat.eq_of_testBit_eq; intro i
  simp [Nat.testBit_shiftRight, Nat.testBit_xor]

theorem xor_shiftLeft (a b k : Nat) : (a ^^^ b) <<< k = a <<< k ^^^ b <<< k := by
  apply Nat.eq_of_testBit_eq; intro i
  simp only [Nat.testBit_shiftLeft, Nat.testBit_xor]
  rcases Decidable.em (k ≤ i) with h | h <;> simp [h]

theorem xor_mod_two_pow (a b k : Nat) : (a ^^^ b) % 2 ^ k = a % 2 ^ k ^^^ b % 2 ^ k := by
  apply Nat.eq_of_testBit_eq; intro i
  simp only [Nat.testBit_mod_two_pow, Nat.testBit_xor]
  rcases Decidable.em (i < k) with h | h <;> simp [h]

theorem land_two_pow_sub_one (a W : Nat) : a &&& (2 ^ W - 1) = a % 2 ^ W := by
  apply Nat.eq_of_testBit_eq; intro i
  simp [Nat.testBit_land, Nat.testBit_mod_two_pow, Nat.testBit_two_pow_sub_one, Bool.and_comm]

theorem shiftLeft_mod_two_pow_eq_zero (n k D : Nat) (h : D ≤ k) : (n <<< k) % 2 ^ D = 0 := by
  rw [Nat.shiftLeft_eq, show k = (k - D) + D by omega, pow_add, ← Nat.mul_assoc]
  exact Nat.mul_mod_left _ _

theorem bottom_n_mask_eq {D W : Nat} (hW : 0 < W) (hWD : W ≤ D) :
    bottom_n_mask D W = 2 ^ W - 1 := by
  unfold bottom_n_mask rshift lshift
  have h1 : (-((D : Int) - (W : Int))).natAbs = D - W := by omega
  have h2 : ¬ D ≤ D - W := by omega
  rw [h1]
  simp only [h2, if_false]
  rcases Nat.lt_or_ge W D with h | h
  · have h3 : -((D : Int) - (W : Int)) < 0 := by omega
    simp only [h3, if_true]
    apply Nat.eq_of_testBit_eq; intro i
    simp only [Nat.testBit_shiftRight, Nat.testBit_two_pow_sub_one]
    rw [decide_eq_decide]
    omega
  · have hDW : D = W := by omega
    subst hDW
    have h3 : ¬ (-((D : Int) - (D : Int)) < 0) := by omega
    simp only [h3, if_false]
    rw [Nat.sub_self, Nat.shiftLeft_zero,
      Nat.mod_eq_of_lt (Nat.sub_lt (Nat.pos_pow_of_pos D (by norm_num)) (by norm_num))]

theorem land_mask_eq_mod {D W : Nat} (hW : 0 < W) (hWD : W ≤ D) (a : Nat) :
    a &&& bottom_n_mask D W = a % 2 ^ W := by
  rw [bottom_n_mask_eq hW hWD, land_two_pow_sub_one]

theorem rshift_coe_eq {D : Nat} (n : Nat) (h : n < 2 ^ D) (k : Nat) :
    rshift D n (k : Int) = n >>> k := by
  unfold rshift lshift
  have h1 : (-(k : Int)).natAbs = k := by omega
  rw [h1]
  rcases Nat.lt_or_ge k D with hk | hk
  · have h2 : ¬ D ≤ k := by omega
    rcases Nat.eq_zero_or_pos k with rfl | hkp
    · have h3 : ¬ (-((0 : Nat) : Int) < 0) := by omega
      rw [if_neg h2, if_neg h3, Nat.shiftLeft_zero, Nat.shiftRight_zero, Nat.mod_eq_of_lt h]
    · have h3 : (-(k : Int) < 0) := by omega
      simp [h2, h3]
  · simp only [hk, if_true]
    rw [Nat.shiftRight_eq_div_pow]
    rw [Nat.div_eq_of_lt (lt_of_lt_of_le h (Nat.pow_le_pow_right (by norm_num) hk))]

theorem lshift_coe_eq {D : Nat} (n : Nat) (k : Nat) :
    lshift D n (k : Int) = (n <<< k) % 2 ^ D := by
  unfold lshift
  have h1 : (k : Int).natAbs = k := by omega
  rw [h1]
  rcases Nat.lt_or_ge k D with hk | hk
  · have h2 : ¬ D ≤ k := by omega
    have h3 : ¬ ((k : Int) < 0) := by omega
    simp [h2, h3]
  · simp [hk, shiftLeft_mod_two_pow_eq_zero n k D hk]

/-! ### Packed array lemmas -/

theorem arrGet_lt (t i : Nat) : arrGet t i < 2 ^ 64 := by
  unfold arrGet
  rw [land_two_pow_sub_one]
  exact Nat.mod_lt _ (by norm_num)

theorem arrGet_zero_arr (i : Nat) : arrGet 0 i = 0 := by
  unfold arrGet; simp

theorem arrGet_arrSet_self (t i v : Nat) (hv : v < 2 ^ 64) :
    arrGet (arrSet t i v) i = v := by
  unfold arrSet
  unfold arrGet
  rw [xor_shiftRight, Nat.shiftLeft_shiftRight, land_two_pow_sub_one, land_two_pow_sub_one,
    xor_mod_two_pow, xor_mod_two_pow, Nat.mod_mod_of_dvd _ dvd_rfl, Nat.mod_eq_of_lt hv,
    Nat.xor_cancel_left]

theorem arrGet_xor_shifted (t x i j : Nat) (hx : x < 2 ^ 64) (hij : i ≠ j) :
    arrGet (t ^^^ x <<< (64 * i)) j = arrGet t j := by
  unfold arrGet
  apply Nat.eq_of_testBit_eq; intro k
  simp only [Nat.testBit_land, Nat.testBit_shiftRight, Nat.testBit_xor, Nat.testBit_shiftLeft,
    Nat.testBit_two_pow_sub_one]
  rcases Nat.lt_or_ge k 64 with hk | hk
  · have hfalse : (decide (64 * j + k ≥ 64 * i) && x.testBit (64 * j + k - 64 * i)) = false := by
      rcases Nat.lt_or_ge (64 * j + k) (64 * i) with h | h
      · have h2 : ¬ (64 * j + k ≥ 64 * i) := by omega
        simp [h2]
      · have hbig : 2 ^ 64 ≤ 2 ^ (64 * j + k - 64 * i) := by
          apply Nat.pow_le_pow_right (by norm_num)
          rcases Nat.lt_or_ge i j with hij2 | hij2 <;> omega
        rw [Nat.testBit_lt_two_pow (lt_of_lt_of_le hx hbig)]
        simp
    rw [hfalse]
    simp
  · have h1 : ¬ (k < 64) := by omega
    simp [h1]

theorem arrGet_arrSet_ne (t i j v : Nat) (hv : v < 2 ^ 64) (hij : i ≠ j) :
    arrGet (arrSet t i v) j = arrGet t j := by
  unfold arrSet
  exact arrGet_xor_shifted t _ i j (Nat.xor_lt_two_pow (arrGet_lt t i) hv) hij

/-! ### xorSum lemmas -/

theorem xorSum_zero (f : Nat → Nat) : xorSum f 0 = 0 := rfl

theorem xorSum_succ (f : Nat → Nat) (M : Nat) :
    xorSum f (M + 1) = xorSum f M ^^^ f M := by
  unfold xorSum
  rw [List.range_succ, List.foldl_append]
  rfl

theorem foldl_xor_eq_xorSum (f : Nat → Nat) (M a : Nat) :
    (List.range M).foldl (fun acc B => acc ^^^ f B) a = a ^^^ xorSum f M := by
  induction M with
  | zero => simp [xorSum_zero]
  | succ M ih =>
    rw [List.range_succ, List.foldl_append, ih, xorSum_succ]
    simp [Nat.xor_assoc]

theorem xorSum_congr {f g : Nat → Nat} (M : Nat) (h : ∀ B < M, f B = g B) :
    xorSum f M = xorSum g M := by
  induction M with
  | zero => rfl
  | succ M ih =>
    rw [xorSum_succ, xorSum_succ, ih (fun B hB => h B (by omega)), h M (by omega)]

theorem xorSum_xor (f g : Nat → Nat) (M : Nat) :
    xorSum (fun B => f B ^^^ g B) M = xorSum f M ^^^ xorSum g M := by
  induction M with
  | zero => simp [xorSum_zero]
  | succ M ih =>
    rw [xorSum_succ, xorSum_succ, xorSum_succ, ih]
    rw [Nat.xor_assoc, Nat.xor_assoc]
    congr 1
    rw [← Nat.xor_assoc, Nat.xor_comm (xorSum g M) (f M), Nat.xor_assoc]

theorem xorSum_lt (f : Nat → Nat) (M k : Nat) (h : ∀ B < M, f B < 2 ^ k) :
    xorSum f M < 2 ^ k := by
  induction M with
  | zero =>
    rw [xorSum_zero]
    exact Nat.pos_pow_of_pos k (by norm_num)
  | succ M ih =>
    rw [xorSum_succ]
    exact Nat.xor_lt_two_pow (ih (fun B hB => h B (by omega))) (h M (by omega))

/-! ### Step function lemmas -/

theorem xor_left_comm (a b c : Nat) : a ^^^ (b ^^^ c) = b ^^^ (a ^^^ c) := by
  rw [← Nat.xor_assoc, Nat.xor_comm a b, Nat.xor_assoc]

theorem stepR_xor (R a b : Nat) : stepR R (a ^^^ b) = stepR R a ^^^ stepR R b := by
  unfold stepR
  rw [xor_shiftRight, Nat.testBit_xor]
  cases ha : a.testBit 0 <;> cases hb : b.testBit 0 <;>
    simp [Nat.xor_assoc, Nat.xor_comm, xor_left_comm, Nat.xor_cancel_left]

theorem stepR_zero (R : Nat) : stepR R 0 = 0 := by
  unfold stepR; simp

theorem stepR_iterate_xor (R k a b : Nat) :
    (stepR R)^[k] (a ^^^ b) = (stepR R)^[k] a ^^^ (stepR R)^[k] b := by
  induction k generalizing a b with
  | zero => rfl
  | succ k ih => rw [Function.iterate_succ_apply, Function.iterate_succ_apply,
      Function.iterate_succ_apply, stepR_xor, ih]

theorem stepR_iterate_zero (R k : Nat) : (stepR R)^[k] 0 = 0 := by
  induction k with
  | zero => rfl
  | succ k ih => rw [Function.iterate_succ_apply, stepR_zero, ih]

theorem stepR_shiftLeft (R v t k : Nat) (h : t ≤ k) :
    (stepR R)^[t] (v <<< k) = v <<< (k - t) := by
  induction t generalizing k with
  | zero => simp
  | succ t ih =>
    rw [Function.iterate_succ_apply]
    have hk : 1 ≤ k := by omega
    have h1 : stepR R (v <<< k) = v <<< (k - 1) := by
      unfold stepR
      have hbit : (v <<< k).testBit 0 = false := by
        rw [Nat.testBit_shiftLeft]
        have h0 : ¬ (0 ≥ k) := by omega
        simp [h0]
      have hk1 : v <<< k = (v <<< (k - 1)) <<< 1 := by
        rw [← Nat.shiftLeft_add]
        congr 1
        omega
      rw [hbit, cond_false, Nat.xor_zero, hk1, Nat.shiftLeft_shiftRight]
    rw [h1, ih (k - 1) (by omega)]
    congr 1
    omega

theorem stepR_lt {R W : Nat} (hR : R < 2 ^ W) {v : Nat} (hv : v < 2 ^ W) :
    stepR R v < 2 ^ W := by
  unfold stepR
  apply Nat.xor_lt_two_pow
  · have h1 : v >>> 1 ≤ v := by
      rw [Nat.shiftRight_eq_div_pow]
      exact Nat.div_le_self v _
    omega
  · cases v.testBit 0
    · exact Nat.pos_pow_of_pos W (by norm_num)
    · exact hR

theorem stepR_iterate_lt {R W : Nat} (hR : R < 2 ^ W) (k : Nat) {v : Nat} (hv : v < 2 ^ W) :
    (stepR R)^[k] v < 2 ^ W := by
  induction k generalizing v with
  | zero => simp only [Function.iterate_zero, id_eq]; exact hv
  | succ k ih => rw [Function.iterate_succ_apply]; exact ih (stepR_lt hR hv)

theorem stepF_xor (W Poly a b : Nat) :
    stepF W Poly (a ^^^ b) = stepF W Poly a ^^^ stepF W Poly b := by
  unfold stepF
  rw [xor_shiftLeft, xor_mod_two_pow, Nat.testBit_xor]
  cases ha : a.testBit (W - 1) <;> cases hb : b.testBit (W - 1) <;>
    simp [Nat.xor_assoc, Nat.xor_comm, xor_left_comm, Nat.xor_cancel_left]

theorem stepF_zero (W Poly : Nat) : stepF W Poly 0 = 0 := by
  unfold stepF; simp

theorem stepF_iterate_xor (W Poly k a b : Nat) :
    (stepF W Poly)^[k] (a ^^^ b) = (stepF W Poly)^[k] a ^^^ (stepF W Poly)^[k] b := by
  induction k generalizing a b with
  | zero => rfl
  | succ k ih => rw [Function.iterate_succ_apply, Function.iterate_succ_apply,
      Function.iterate_succ_apply, stepF_xor, ih]

theorem stepF_iterate_zero (W Poly k : Nat) : (stepF W Poly)^[k] 0 = 0 := by
  induction k with
  | zero => rfl
  | succ k ih => rw [Function.iterate_succ_apply, stepF_zero, ih]

theorem stepF_mod {W : Nat} (hW : 0 < W) (Poly v : Nat) :
    stepF W Poly (v % 2 ^ W) = stepF W Poly v := by
  unfold stepF
  congr 1
  · apply Nat.eq_of_testBit_eq; intro i
    simp only [Nat.testBit_mod_two_pow, Nat.testBit_shiftLeft]
    rcases Decidable.em (1 ≤ i) with h | h
    · rcases Decidable.em (i < W) with h2 | h2
      · have h3 : i - 1 < W := by omega
        simp [h, h2, h3]
      · simp [h, h2]
    · simp [h]
  · congr 1
    rw [Nat.testBit_mod_two_pow]
    have h1 : W - 1 < W := by omega
    simp [h1]

theorem stepF_lt {W Poly : Nat} (hP : Poly < 2 ^ W) (v : Nat) : stepF W Poly v < 2 ^ W := by
  unfold stepF
  apply Nat.xor_lt_two_pow
  · exact Nat.mod_lt _ (Nat.pos_pow_of_pos W (by norm_num))
  · cases v.testBit (W - 1)
    · exact Nat.pos_pow_of_pos W (by norm_num)
    · exact hP

theorem stepF_iterate_lt {W Poly : Nat} (hP : Poly < 2 ^ W) (k : Nat) {v : Nat}
    (hv : v < 2 ^ W) : (stepF W Poly)^[k] v < 2 ^ W := by
  induction k generalizing v with
  | zero => simp only [Function.iterate_zero, id_eq]; exact hv
  | succ k ih => rw [Function.iterate_succ_apply]; exact ih (stepF_lt hP _)

theorem stepF_iterate_mod {W : Nat} (hW : 0 < W) (Poly k : Nat) (hk : 1 ≤ k) (v : Nat) :
    (stepF W Poly)^[k] (v % 2 ^ W) = (stepF W Poly)^[k] v := by
  rw [show k = (k - 1) + 1 by omega, Function.iterate_succ_apply, Function.iterate_succ_apply,
    stepF_mod hW]

theorem stepF_shiftLeft (W Poly v c t k : Nat) (hv : v < 2 ^ c) (h : c + k + t ≤ W) :
    (stepF W Poly)^[t] (v <<< k) = v <<< (k + t) := by
  induction t generalizing k with
  | zero => simp
  | succ t ih =>
    rw [Function.iterate_succ_apply]
    have h1 : stepF W Poly (v <<< k) = v <<< (k + 1) := by
      unfold stepF
      have hlt : v <<< k < 2 ^ (c + k) := by
        rw [Nat.shiftLeft_eq, pow_add]
        exact (Nat.mul_lt_mul_right (Nat.pos_pow_of_pos k (by norm_num))).mpr hv
      have hbit : (v <<< k).testBit (W - 1) = false := by
        apply Nat.testBit_lt_two_pow
        calc v <<< k < 2 ^ (c + k) := hlt
        _ ≤ 2 ^ (W - 1) := Nat.pow_le_pow_right (by norm_num) (by omega)
      rw [hbit, cond_false, Nat.xor_zero, ← Nat.shiftLeft_add]
      apply Nat.mod_eq_of_lt
      have h2 : (0 : Nat) < 2 ^ (k + 1) := Nat.pos_pow_of_pos (k + 1) (by norm_num)
      calc v <<< (k + 1) = v * 2 ^ (k + 1) := Nat.shiftLeft_eq v (k + 1)
      _ < 2 ^ c * 2 ^ (k + 1) := (Nat.mul_lt_mul_right h2).mpr hv
      _ = 2 ^ (c + (k + 1)) := (pow_add 2 c (k + 1)).symm
      _ ≤ 2 ^ W := Nat.pow_le_pow_right (by norm_num) (by omega)
    rw [h1, ih (k + 1) (by omega)]
    congr 1
    omega

/-! ### Reflect bound -/

theorem reflectAux_lt (fuel n b : Nat) (hb64 : b ≤ 64) : reflectAux fuel n b < 2 ^ b := by
  induction fuel generalizing n b with
  | zero =>
    unfold reflectAux
    exact Nat.pos_pow_of_pos b (by norm_num)
  | succ fuel ih =>
    unfold reflectAux
    rcases Decidable.em (b ≤ 10) with h | h
    · simp only [h, if_true]
      rw [Nat.shiftRight_eq_div_pow]
      apply Nat.div_lt_of_lt_mul
      calc _ % 2 ^ 64 < 2 ^ 64 := Nat.mod_lt _ (by norm_num)
      _ = 2 ^ (64 - b) * 2 ^ b := by rw [← pow_add]; congr 1; omega
    · simp only [h, if_false]
      apply Nat.or_lt_two_pow
      · calc reflectAux fuel (n &&& 0x3FF) 10 <<< (b - 10) < 2 ^ 10 <<< (b - 10) := by
              rw [Nat.shiftLeft_eq, Nat.shiftLeft_eq]
              exact (Nat.mul_lt_mul_right (Nat.pos_pow_of_pos _ (by norm_num))).mpr
                (ih _ 10 (by norm_num))
        _ = 2 ^ b := by rw [Nat.shiftLeft_eq, ← pow_add]; congr 1; omega
      · calc reflectAux fuel (n >>> 10) (b - 10) < 2 ^ (b - 10) := ih _ _ (by omega)
        _ ≤ 2 ^ b := Nat.pow_le_pow_right (by norm_num) (by omega)

theorem reflect_lt (n b : Nat) (hb64 : b ≤ 64) : reflect n b < 2 ^ b :=
  reflectAux_lt (b + 1) n b hb64

/-! ### digitsOf and bitWidth -/

theorem le_digitsOf (W : Nat) (hW : W ≤ 64) : W ≤ digitsOf W := by
  unfold digitsOf
  split_ifs <;> omega

theorem digitsOf_le (W : Nat) : digitsOf W ≤ 64 := by
  unfold digitsOf
  split_ifs <;> omega

theorem digitsOf_pos (W : Nat) : 0 < digitsOf W := by
  unfold digitsOf
  split_ifs <;> omega

theorem digitsOf_mono {a b : Nat} (h : a ≤ b) : digitsOf a ≤ digitsOf b := by
  unfold digitsOf
  split_ifs <;> omega

theorem bitWidthAux_bound (fuel : Nat) : ∀ n, n < 2 ^ fuel → n < 2 ^ bitWidthAux fuel n := by
  induction fuel with
  | zero =>
    intro n h
    interval_cases n
    unfold bitWidthAux
    norm_num
  | succ fuel ih =>
    intro n h
    unfold bitWidthAux
    rcases Decidable.em (n = 0) with rfl | hn
    · norm_num
    · simp only [hn, if_false]
      have h2 : n / 2 < 2 ^ fuel := by
        rw [pow_succ] at h
        omega
      have h3 := ih (n / 2) h2
      rw [pow_succ]
      omega

theorem lt_two_pow_bitWidth {n : Nat} (h : n < 2 ^ 64) : n < 2 ^ bitWidth n :=
  bitWidthAux_bound 64 n h

/-! ### Table chain characterization, reflected -/

theorem sliceElemWidth_refl (W Poly s : Nat) : sliceElemWidth W Poly true s = W := rfl

theorem tblStep_refl (W Poly s r : Nat) :
    tblStep W Poly true s r =
      ((r >>> 1) ^^^ cond (bit_is_set r 0) (reflect Poly W) 0) % 2 ^ digitsOf W := rfl

theorem tblStep_fwd (W Poly s r : Nat) :
    tblStep W Poly false s r =
      ((r <<< 1) ^^^ cond (bit_is_set r (W - 1)) Poly 0) %
        2 ^ digitsOf (sliceElemWidth W Poly false s) := rfl

theorem tblChain_refl (W Poly : Nat) (hW1 : 0 < W) (hW : W ≤ 64) (k : Nat) :
    tblChain W Poly true k = (stepR (reflect Poly W))^[k] 1 := by
  have hR : reflect Poly W < 2 ^ W := reflect_lt Poly W hW
  induction k with
  | zero => rfl
  | succ k ih =>
    rw [Function.iterate_succ_apply']
    show tblStep W Poly true (k / 8) (tblChain W Poly true k) = _
    rw [tblStep_refl, ih, bit_is_set_eq]
    have hlt : stepR (reflect Poly W) ((stepR (reflect Poly W))^[k] 1) < 2 ^ W :=
      stepR_lt hR (stepR_iterate_lt hR k (by
        calc (1 : Nat) < 2 ^ 1 := by norm_num
        _ ≤ 2 ^ W := Nat.pow_le_pow_right (by norm_num) (by omega)))
    rw [show ((stepR (reflect Poly W))^[k] 1 >>> 1 ^^^
        cond (((stepR (reflect Poly W))^[k] 1).testBit 0) (reflect Poly W) 0) =
        stepR (reflect Poly W) ((stepR (reflect Poly W))^[k] 1) from rfl]
    exact Nat.mod_eq_of_lt (lt_of_lt_of_le hlt
      (Nat.pow_le_pow_right (by norm_num) (le_digitsOf W hW)))

/-! ### Table chain characterization, forward -/

theorem stepF_top_chain (W Poly : Nat) (hW1 : 0 < W) (hP : Poly < 2 ^ bitWidth Poly)
    (k : Nat) (hk : 1 ≤ k) (hreg : bitWidth Poly + k ≤ W + 1) :
    (stepF W Poly)^[k] (1 <<< (W - 1)) = Poly <<< (k - 1) := by
  induction k with
  | zero => omega
  | succ k ih =>
    rcases Nat.eq_zero_or_pos k with rfl | hk1
    · rw [Function.iterate_succ_apply, Function.iterate_zero, id_eq]
      unfold stepF
      have hbit : (1 <<< (W - 1)).testBit (W - 1) = true := by
        rw [Nat.one_shiftLeft, Nat.testBit_two_pow]
        simp
      rw [hbit, cond_true, ← Nat.shiftLeft_add, Nat.one_shiftLeft,
        show W - 1 + 1 = W by omega, Nat.mod_self, Nat.zero_xor, Nat.shiftLeft_zero]
    · rw [Function.iterate_succ_apply', ih hk1 (by omega)]
      have h1 : (stepF W Poly)^[1] (Poly <<< (k - 1)) = Poly <<< (k - 1 + 1) :=
        stepF_shiftLeft W Poly Poly (bitWidth Poly) 1 (k - 1) hP (by omega)
      rw [Function.iterate_one] at h1
      rw [h1]
      congr 1
      omega

theorem sliceElemWidth_mono (W Poly : Nat) {s1 s2 : Nat} (h : s1 ≤ s2) :
    sliceElemWidth W Poly false s1 ≤ sliceElemWidth W Poly false s2 := by
  unfold sliceElemWidth
  simp only [Bool.false_eq_true, if_false]
  omega

theorem elem_digits_small (W Poly s : Nat) (hW8 : 8 ≤ W) (hW : W ≤ 64)
    (hED : digitsOf (sliceElemWidth W Poly false s) < W) :
    sliceElemWidth W Poly false s = 7 + bitWidth Poly + 8 * s ∧
      7 + bitWidth Poly + 8 * s < W := by
  have hEWle : sliceElemWidth W Poly false s ≤ 64 := by
    by_contra hgt
    have h64 : digitsOf (sliceElemWidth W Poly false s) = 64 := by
      unfold digitsOf
      split_ifs <;> omega
    omega
  have hled := le_digitsOf _ hEWle
  unfold sliceElemWidth at hED hled ⊢
  simp only [Bool.false_eq_true, if_false] at hED hled ⊢
  rcases Nat.lt_or_ge (7 + bitWidth Poly + 8 * s) W with h | h
  · rw [min_eq_right (by omega)] at hED hled ⊢
    exact ⟨rfl, h⟩
  · rw [min_eq_left (by omega)] at hED hled
    omega

theorem tblChain_fwd_small (W Poly : Nat) (hW8 : 8 ≤ W) (hW : W ≤ 64)
    (hP : Poly < 2 ^ bitWidth Poly) :
    ∀ k, 1 ≤ k → digitsOf (sliceElemWidth W Poly false ((k - 1) / 8)) < W →
      tblChain W Poly false k = Poly <<< (k - 1) := by
  intro k
  induction k with
  | zero => omega
  | succ k ih =>
    intro _ hED
    have hEDk : digitsOf (sliceElemWidth W Poly false (k / 8)) < W := by
      simpa using hED
    obtain ⟨hEW, hlt⟩ := elem_digits_small W Poly (k / 8) hW8 hW hEDk
    have hPEW : Poly <<< k < 2 ^ sliceElemWidth W Poly false (k / 8) := by
      rw [hEW, Nat.shiftLeft_eq]
      calc Poly * 2 ^ k < 2 ^ bitWidth Poly * 2 ^ k := by
            have h2 : (0 : Nat) < 2 ^ k := Nat.pos_pow_of_pos k (by norm_num)
            exact (Nat.mul_lt_mul_right h2).mpr hP
      _ = 2 ^ (bitWidth Poly + k) := (pow_add 2 _ _).symm
      _ ≤ 2 ^ (7 + bitWidth Poly + 8 * (k / 8)) :=
            Nat.pow_le_pow_right (by norm_num) (by omega)
    have hPED : Poly <<< k < 2 ^ digitsOf (sliceElemWidth W Poly false (k / 8)) := by
      calc Poly <<< k < 2 ^ sliceElemWidth W Poly false (k / 8) := hPEW
      _ ≤ 2 ^ digitsOf (sliceElemWidth W Poly false (k / 8)) := by
          apply Nat.pow_le_pow_right (by norm_num)
          apply le_digitsOf
          omega
    rcases Nat.eq_zero_or_pos k with rfl | hk1
    · show tblStep W Poly false 0 (tblChain W Poly false 0) = Poly <<< 0
      rw [tblStep_fwd]
      show ((1 <<< (W - 1)) <<< 1 ^^^
        cond (bit_is_set (1 <<< (W - 1)) (W - 1)) Poly 0) % _ = _
      have hbit : bit_is_set (1 <<< (W - 1)) (W - 1) = true := by
        rw [bit_is_set_eq, Nat.one_shiftLeft, Nat.testBit_two_pow]
        simp
      rw [hbit, cond_true, ← Nat.shiftLeft_add, Nat.one_shiftLeft,
        show W - 1 + 1 = W by omega]
      rw [xor_mod_two_pow]
      have h2W : (2 ^ W) % 2 ^ digitsOf (sliceElemWidth W Poly false 0) = 0 := by
        obtain ⟨c, hc⟩ := pow_dvd_pow 2 (show digitsOf (sliceElemWidth W Poly false 0) ≤ W by
          simp only [Nat.zero_div] at hEDk
          omega)
        rw [hc, Nat.mul_mod_right]
      have hPmod : Poly % 2 ^ digitsOf (sliceElemWidth W Poly false 0) = Poly := by
        apply Nat.mod_eq_of_lt
        simpa using hPED
      rw [h2W, hPmod, Nat.zero_xor, Nat.shiftLeft_zero]
    · have hEDk1 : digitsOf (sliceElemWidth W Poly false ((k - 1) / 8)) < W :=
        lt_of_le_of_lt (digitsOf_mono (sliceElemWidth_mono W Poly (by omega))) hEDk
      have hchain := ih hk1 hEDk1
      show tblStep W Poly false (k / 8) (tblChain W Poly false k) = Poly <<< k
      rw [tblStep_fwd, hchain]
      have hbit : bit_is_set (Poly <<< (k - 1)) (W - 1) = false := by
        rw [bit_is_set_eq]
        apply Nat.testBit_lt_two_pow
        calc Poly <<< (k - 1) < 2 ^ (bitWidth Poly + (k - 1)) := by
              rw [Nat.shiftLeft_eq]
              calc Poly * 2 ^ (k - 1) < 2 ^ bitWidth Poly * 2 ^ (k - 1) := by
                    have h2 : (0 : Nat) < 2 ^ (k - 1) := Nat.pos_pow_of_pos _ (by norm_num)
                    exact (Nat.mul_lt_mul_right h2).mpr hP
              _ = 2 ^ (bitWidth Poly + (k - 1)) := (pow_add 2 _ _).symm
        _ ≤ 2 ^ (W - 1) := Nat.pow_le_pow_right (by norm_num) (by omega)
      rw [hbit, cond_false, Nat.xor_zero, ← Nat.shiftLeft_add,
        show k - 1 + 1 = k by omega]
      exact Nat.mod_eq_of_lt hPED

theorem stepF_mod_micro (W Poly : Nat) (hW1 : 0 < W) (hP : Poly < 2 ^ W) (r : Nat) :
    ((r <<< 1) ^^^ cond (r.testBit (W - 1)) Poly 0) % 2 ^ W = stepF W Poly r := by
  unfold stepF
  rw [xor_mod_two_pow]
  congr 1
  cases r.testBit (W - 1)
  · simp
  · exact Nat.mod_eq_of_lt hP

theorem tblChain_fwd (W Poly : Nat) (hW8 : 8 ≤ W) (hW : W ≤ 64) (hP : Poly < 2 ^ W)
    (k : Nat) :
    tblChain W Poly false k % 2 ^ W = (stepF W Poly)^[k] (1 <<< (W - 1)) % 2 ^ W := by
  have hPbw : Poly < 2 ^ bitWidth Poly :=
    lt_two_pow_bitWidth (lt_of_lt_of_le hP (Nat.pow_le_pow_right (by norm_num) hW))
  induction k with
  | zero => rfl
  | succ k ih =>
    rcases Nat.lt_or_ge (digitsOf (sliceElemWidth W Poly false (k / 8))) W with hED | hED
    · have h1 : tblChain W Poly false (k + 1) = Poly <<< k := by
        apply tblChain_fwd_small W Poly hW8 hW hPbw (k + 1) (by omega)
        simpa using hED
      obtain ⟨hEW, hlt⟩ := elem_digits_small W Poly (k / 8) hW8 hW hED
      have h2 : (stepF W Poly)^[k + 1] (1 <<< (W - 1)) = Poly <<< k := by
        rw [stepF_top_chain W Poly (by omega) hPbw (k + 1) (by omega) (by omega)]
        simp
      rw [h1, h2]
    · show tblStep W Poly false (k / 8) (tblChain W Poly false k) % 2 ^ W = _
      rw [tblStep_fwd, Nat.mod_mod_of_dvd _ (pow_dvd_pow 2 hED), bit_is_set_eq]
      have hr : ∀ r : Nat, ((r <<< 1) ^^^ cond (r.testBit (W - 1)) Poly 0) % 2 ^ W =
          stepF W Poly r := stepF_mod_micro W Poly (by omega) hP
      rw [hr]
      rw [Function.iterate_succ_apply']
      have hsf : stepF W Poly (tblChain W Poly false k) =
          stepF W Poly ((stepF W Poly)^[k] (1 <<< (W - 1))) := by
        rw [← stepF_mod (by omega : 0 < W) Poly (tblChain W Poly false k), ih,
          stepF_mod (by omega : 0 < W)]
      rw [hsf, Nat.mod_eq_of_lt (stepF_lt hP _)]

/-! ### Table characterization -/

theorem xorSum_const_zero (M : Nat) : xorSum (fun _ => 0) M = 0 := by
  induction M with
  | zero => rfl
  | succ M ih => rw [xorSum_succ, ih, Nat.xor_zero]

theorem xorSum_single (f : Nat → Nat) (j0 M : Nat) (hj0 : j0 < M)
    (hz : ∀ B, B < M → B ≠ j0 → f B = 0) : xorSum f M = f j0 := by
  induction M with
  | zero => omega
  | succ M ih =>
    rw [xorSum_succ]
    rcases Nat.lt_or_ge j0 M with h | h
    · rw [ih h (fun B h1 h2 => hz B (by omega) h2), hz M (by omega) (by omega), Nat.xor_zero]
    · have hj0M : j0 = M := by omega
      subst hj0M
      rw [show xorSum f j0 = xorSum (fun _ => 0) j0 from
        xorSum_congr j0 (fun B hB => hz B (by omega) (by omega)),
        xorSum_const_zero, Nat.zero_xor]

theorem tblChain_lt_64 (W Poly : Nat) (RefIn : Bool) (hW : W ≤ 64) (k : Nat) :
    tblChain W Poly RefIn k < 2 ^ 64 := by
  cases k with
  | zero =>
    show (if RefIn then 1 else 1 <<< (W - 1)) < 2 ^ 64
    cases RefIn
    · simp only [Bool.false_eq_true, if_false, Nat.one_shiftLeft]
      exact Nat.pow_lt_pow_right (by norm_num) (by omega)
    · simp
  | succ k =>
    show tblStep W Poly RefIn (k / 8) (tblChain W Poly RefIn k) < 2 ^ 64
    unfold tblStep
    have hle : (2 : Nat) ^ digitsOf (sliceElemWidth W Poly RefIn (k / 8)) ≤ 2 ^ 64 :=
      Nat.pow_le_pow_right (by norm_num) (digitsOf_le _)
    cases RefIn <;>
      exact lt_of_lt_of_le (Nat.mod_lt _ (Nat.pos_pow_of_pos _ (by norm_num))) hle

/-- The mathematical value of entry `c` of the table of slice `s`: the XOR,
over the set bits `j` of `c`, of the chain value stored for the power-of-two
entry `2 ^ j`. -/
def tblSpec (W Poly : Nat) (RefIn : Bool) (s c : Nat) : Nat :=
  xorSum (fun j => if c.testBit j then
    tblChain W Poly RefIn (8 * s + (if RefIn then 7 - j else j) + 1) else 0) 8

theorem tblSpec_xor (W Poly : Nat) (RefIn : Bool) (s a b : Nat) :
    tblSpec W Poly RefIn s (a ^^^ b) = tblSpec W Poly RefIn s a ^^^ tblSpec W Poly RefIn s b := by
  unfold tblSpec
  rw [← xorSum_xor]
  apply xorSum_congr
  intro B _
  rw [Nat.testBit_xor]
  cases ha : a.testBit B <;> cases hb : b.testBit B <;> simp

theorem tblSpec_zero_entry (W Poly : Nat) (RefIn : Bool) (s : Nat) :
    tblSpec W Poly RefIn s 0 = 0 := by
  unfold tblSpec
  rw [show xorSum (fun j => if (0 : Nat).testBit j then
      tblChain W Poly RefIn (8 * s + (if RefIn then 7 - j else j) + 1) else 0) 8 =
      xorSum (fun _ => 0) 8 from xorSum_congr 8 (fun B _ => by simp),
    xorSum_const_zero]

theorem tblSpec_two_pow (W Poly : Nat) (RefIn : Bool) (s j : Nat) (hj : j < 8) :
    tblSpec W Poly RefIn s (2 ^ j) =
      tblChain W Poly RefIn (8 * s + (if RefIn then 7 - j else j) + 1) := by
  unfold tblSpec
  rw [xorSum_single _ j 8 hj]
  · rw [Nat.testBit_two_pow]
    simp
  · intro B _ hBj
    rw [Nat.testBit_two_pow]
    have hne : ¬ (j = B) := fun h => hBj h.symm
    simp [hne]

theorem tblSpec_lt_64 (W Poly : Nat) (RefIn : Bool) (hW : W ≤ 64) (s c : Nat) :
    tblSpec W Poly RefIn s c < 2 ^ 64 := by
  unfold tblSpec
  apply xorSum_lt
  intro B _
  split
  · exact tblChain_lt_64 W Poly RefIn hW _
  · exact Nat.pos_pow_of_pos 64 (by norm_num)

theorem two_pow_xor_eq_add {a k : Nat} (h : a < 2 ^ k) : 2 ^ k ^^^ a = 2 ^ k + a := by
  apply Nat.eq_of_testBit_eq; intro i
  rw [Nat.testBit_xor, show 2 ^ k + a = 2 ^ k * 1 + a by ring,
    Nat.testBit_mul_pow_two_add 1 h]
  rcases Nat.lt_trichotomy i k with h1 | rfl | h1
  · have h2 : ¬ (k = i) := by omega
    simp [Nat.testBit_two_pow, h1, h2]
  · have h2 : a.testBit i = false := Nat.testBit_lt_two_pow h
    have h3 : ¬ (i < i) := by omega
    simp [Nat.testBit_two_pow, h2, h3]
  · have h2 : a.testBit i = false :=
      Nat.testBit_lt_two_pow (lt_of_lt_of_le h (Nat.pow_le_pow_right (by norm_num) (by omega)))
    have h3 : ¬ (k = i) := by omega
    have h4 : ¬ (i < k) := by omega
    have h5 : (1 : Nat).testBit (i - k) = false := by
      apply Nat.testBit_lt_two_pow
      calc (1 : Nat) < 2 ^ 1 := by norm_num
      _ ≤ 2 ^ (i - k) := Nat.pow_le_pow_right (by norm_num) (by omega)
    simp [Nat.testBit_two_pow, h2, h3, h4, h5]

theorem foldl_arrSet_miss (idx val : Nat → Nat) (n : Nat)
    (hval : ∀ i, i < n → val i < 2 ^ 64) (t c : Nat) (hmiss : ∀ i, i < n → idx i ≠ c) :
    arrGet ((List.range n).foldl (fun t i => arrSet t (idx i) (val i)) t) c = arrGet t c := by
  induction n with
  | zero => rfl
  | succ n ih =>
    rw [List.range_succ, List.foldl_append, List.foldl_cons, List.foldl_nil]
    rw [arrGet_arrSet_ne _ _ _ _ (hval n (by omega)) (hmiss n (by omega))]
    exact ih (fun i hi => hval i (by omega)) (fun i hi => hmiss i (by omega))

theorem foldl_arrSet_hit (idx val : Nat → Nat) (n : Nat)
    (hval : ∀ i, i < n → val i < 2 ^ 64) (t : Nat) (i0 : Nat) (hi0 : i0 < n)
    (hlater : ∀ i, i0 < i → i < n → idx i ≠ idx i0) :
    arrGet ((List.range n).foldl (fun t i => arrSet t (idx i) (val i)) t) (idx i0) = val i0 := by
  induction n with
  | zero => omega
  | succ n ih =>
    rw [List.range_succ, List.foldl_append, List.foldl_cons, List.foldl_nil]
    rcases Nat.lt_or_ge i0 n with h | h
    · rw [arrGet_arrSet_ne _ _ _ _ (hval n (by omega)) (hlater n h (by omega))]
      exact ih (fun i hi => hval i (by omega)) h (fun i h1 h2 => hlater i h1 (by omega))
    · have hi0n : i0 = n := by omega
      subst hi0n
      exact arrGet_arrSet_self _ _ _ (hval i0 (by omega))

theorem tblPhase1_pow (W Poly : Nat) (RefIn : Bool) (s : Nat) (hW : W ≤ 64)
    (i0 : Nat) (hi0 : i0 < 8) :
    arrGet (tblPhase1 W Poly RefIn s) (if RefIn then 1 <<< (7 - i0) else 1 <<< i0) =
      tblChain W Poly RefIn (8 * s + i0 + 1) := by
  unfold tblPhase1
  exact foldl_arrSet_hit _ _ 8 (fun i _ => tblChain_lt_64 W Poly RefIn hW _) 0 i0 hi0
    (by
      intro i h1 h2
      cases RefIn <;> simp only [Bool.false_eq_true, if_false, if_true] <;>
        rw [Nat.one_shiftLeft, Nat.one_shiftLeft] <;>
        intro hEq <;> have := Nat.pow_right_injective (by norm_num) hEq <;> omega)

theorem tblPhase1_other (W Poly : Nat) (RefIn : Bool) (s : Nat) (hW : W ≤ 64)
    (c : Nat) (hc : ∀ j, j < 8 → c ≠ 2 ^ j) :
    arrGet (tblPhase1 W Poly RefIn s) c = 0 := by
  unfold tblPhase1
  rw [foldl_arrSet_miss _ _ 8 (fun i _ => tblChain_lt_64 W Poly RefIn hW _) 0 c ?hm]
  · exact arrGet_zero_arr c
  case hm =>
    intro i hi
    cases RefIn <;> simp only [Bool.false_eq_true, if_false, if_true] <;>
      rw [Nat.one_shiftLeft]
    · exact fun h => hc i hi h.symm
    · exact fun h => hc (7 - i) (by omega) h.symm

theorem tblPhase1_spec_pow (W Poly : Nat) (RefIn : Bool) (s : Nat) (hW : W ≤ 64)
    (j : Nat) (hj : j < 8) :
    arrGet (tblPhase1 W Poly RefIn s) (2 ^ j) = tblSpec W Poly RefIn s (2 ^ j) := by
  rw [tblSpec_two_pow W Poly RefIn s j hj]
  cases hR : RefIn
  · have h1 := tblPhase1_pow W Poly false s hW j hj
    simp only [Bool.false_eq_true, if_false, Nat.one_shiftLeft] at h1 ⊢
    rw [h1]
  · have h1 := tblPhase1_pow W Poly true s hW (7 - j) (by omega)
    simp only [if_true, Nat.one_shiftLeft, show 7 - (7 - j) = j by omega] at h1 ⊢
    rw [h1]

theorem tblFill_spec (W Poly : Nat) (RefIn : Bool) (s : Nat) (hW : W ≤ 64) :
    ∀ c, c < 256 → arrGet (tbl W Poly RefIn s) c = tblSpec W Poly RefIn s c := by
  have key : ∀ P, P ≤ 7 →
      (∀ c, c < 2 <<< P →
        arrGet ((List.range P).foldl (fun t p =>
          (List.range (2 <<< p - 1)).foldl (fun t j1 =>
            arrSet t ((2 <<< p) ^^^ (j1 + 1)) ((arrGet t (2 <<< p)) ^^^ (arrGet t (j1 + 1)))) t)
          (tblPhase1 W Poly RefIn s)) c = tblSpec W Poly RefIn s c) ∧
      (∀ c, 2 <<< P ≤ c →
        arrGet ((List.range P).foldl (fun t p =>
          (List.range (2 <<< p - 1)).foldl (fun t j1 =>
            arrSet t ((2 <<< p) ^^^ (j1 + 1)) ((arrGet t (2 <<< p)) ^^^ (arrGet t (j1 + 1)))) t)
          (tblPhase1 W Poly RefIn s)) c = arrGet (tblPhase1 W Poly RefIn s) c) := by
    intro P
    induction P with
    | zero =>
      intro _
      rw [List.range_zero, List.foldl_nil]
      constructor
      · intro c hc
        have h20 : (2 : Nat) <<< 0 = 2 := rfl
        rw [h20] at hc
        interval_cases c
        · rw [tblPhase1_other W Poly RefIn s hW 0 ?hz, tblSpec_zero_entry]
          case hz =>
            intro j _ hj0
            exact absurd hj0.symm (Nat.pos_pow_of_pos j (by norm_num)).ne'
        · rw [show (1 : Nat) = 2 ^ 0 by norm_num]
          exact tblPhase1_spec_pow W Poly RefIn s hW 0 (by norm_num)
      · intro c _
        rfl
    | succ P ihP =>
      intro hP7
      obtain ⟨ih1, ih2⟩ := ihP (by omega)
      have hi : (2 : Nat) <<< P = 2 ^ (P + 1) := by
        rw [Nat.shiftLeft_eq, pow_succ]
        ring
      have hi2 : (2 : Nat) <<< (P + 1) = 2 ^ (P + 2) := by
        rw [Nat.shiftLeft_eq, pow_succ, pow_succ]
        ring
      rw [List.range_succ, List.foldl_append, List.foldl_cons, List.foldl_nil]
      set tP := (List.range P).foldl (fun t p =>
          (List.range (2 <<< p - 1)).foldl (fun t j1 =>
            arrSet t ((2 <<< p) ^^^ (j1 + 1)) ((arrGet t (2 <<< p)) ^^^ (arrGet t (j1 + 1)))) t)
          (tblPhase1 W Poly RefIn s) with htP
      have hgetPi : arrGet tP (2 <<< P) = tblSpec W Poly RefIn s (2 <<< P) := by
        rw [ih2 _ le_rfl, hi]
        exact tblPhase1_spec_pow W Poly RefIn s hW (P + 1) (by omega)
      have inner : ∀ J, J ≤ 2 <<< P - 1 →
          (∀ c, 2 <<< P < c → c ≤ 2 <<< P + J →
            arrGet ((List.range J).foldl (fun t j1 =>
              arrSet t ((2 <<< P) ^^^ (j1 + 1)) ((arrGet t (2 <<< P)) ^^^ (arrGet t (j1 + 1)))) tP)
              c = tblSpec W Poly RefIn s c) ∧
          (∀ c, c ≤ 2 <<< P ∨ 2 <<< P + J < c →
            arrGet ((List.range J).foldl (fun t j1 =>
              arrSet t ((2 <<< P) ^^^ (j1 + 1)) ((arrGet t (2 <<< P)) ^^^ (arrGet t (j1 + 1)))) tP)
              c = arrGet tP c) := by
        intro J
        induction J with
        | zero =>
          intro _
          constructor
          · intro c h1 h2
            omega
          · intro c _
            rfl
        | succ J ihJ =>
          intro hJ
          obtain ⟨ihJ1, ihJ2⟩ := ihJ (by omega)
          rw [List.range_succ, List.foldl_append, List.foldl_cons, List.foldl_nil]
          set tJ := (List.range J).foldl (fun t j1 =>
            arrSet t ((2 <<< P) ^^^ (j1 + 1)) ((arrGet t (2 <<< P)) ^^^ (arrGet t (j1 + 1)))) tP
            with htJ
          have h2pos : (2 : Nat) ≤ 2 ^ (P + 1) := by
            calc (2 : Nat) = 2 ^ 1 := by norm_num
            _ ≤ 2 ^ (P + 1) := Nat.pow_le_pow_right (by norm_num) (by omega)
          have hJlt : J + 1 < 2 <<< P := by omega
          have hxor : (2 <<< P) ^^^ (J + 1) = 2 <<< P + (J + 1) := by
            rw [hi]
            rw [hi] at hJlt
            exact two_pow_xor_eq_add hJlt
          have hgi : arrGet tJ (2 <<< P) = tblSpec W Poly RefIn s (2 <<< P) := by
            rw [ihJ2 _ (Or.inl le_rfl), hgetPi]
          have hgj : arrGet tJ (J + 1) = tblSpec W Poly RefIn s (J + 1) := by
            rw [ihJ2 _ (Or.inl (by omega)), ih1 _ (by omega)]
          have hval : (arrGet tJ (2 <<< P)) ^^^ (arrGet tJ (J + 1)) < 2 ^ 64 :=
            Nat.xor_lt_two_pow (arrGet_lt _ _) (arrGet_lt _ _)
          constructor
          · intro c h1 h2
            rcases Nat.eq_or_lt_of_le h2 with hceq | hclt
            · rw [hceq, ← hxor, arrGet_arrSet_self _ _ _ hval, hgi, hgj, ← tblSpec_xor, hxor]
            · rw [arrGet_arrSet_ne _ _ _ _ hval (by rw [hxor]; omega)]
              exact ihJ1 c h1 (by omega)
          · intro c hc
            rw [arrGet_arrSet_ne _ _ _ _ hval (by rw [hxor]; omega)]
            apply ihJ2
            rcases hc with hc | hc
            · exact Or.inl hc
            · exact Or.inr (by omega)
      obtain ⟨in1, in2⟩ := inner (2 <<< P - 1) le_rfl
      have h2pos : (2 : Nat) ≤ 2 ^ (P + 1) := by
        calc (2 : Nat) = 2 ^ 1 := by norm_num
        _ ≤ 2 ^ (P + 1) := Nat.pow_le_pow_right (by norm_num) (by omega)
      have hdouble : (2 : Nat) <<< (P + 1) = 2 * (2 <<< P) := by
        rw [hi, hi2, pow_succ]
        ring
      constructor
      · intro c hc
        rw [hdouble] at hc
        rcases Nat.lt_trichotomy c (2 <<< P) with h | h | h
        · rw [in2 c (Or.inl (by omega))]
          exact ih1 c h
        · rw [h, in2 _ (Or.inl le_rfl), hgetPi]
        · apply in1 c h
          rw [hi] at h hc ⊢
          omega
      · intro c hc
        rw [hdouble] at hc
        rw [in2 c (Or.inr (by rw [hi] at hc ⊢; omega))]
        apply ih2
        rw [hi] at hc ⊢
        omega
  intro c hc
  obtain ⟨k1, _⟩ := key 7 le_rfl
  have hshape : tbl W Poly RefIn s = (List.range 7).foldl (fun t p =>
      (List.range (2 <<< p - 1)).foldl (fun t j1 =>
        arrSet t ((2 <<< p) ^^^ (j1 + 1)) ((arrGet t (2 <<< p)) ^^^ (arrGet t (j1 + 1)))) t)
      (tblPhase1 W Poly RefIn s) := rfl
  rw [hshape]
  apply k1
  have h27 : (2 : Nat) <<< 7 = 256 := rfl
  omega

/-! ### xorSum and shift helper lemmas for the block lemma -/

theorem xorSum_mod (f : Nat → Nat) (M k : Nat) :
    (xorSum f M) % 2 ^ k = xorSum (fun B => f B % 2 ^ k) M := by
  induction M with
  | zero => simp [xorSum_zero]
  | succ M ih => rw [xorSum_succ, xorSum_succ, xor_mod_two_pow, ih]

theorem xorSum_shiftLeft (f : Nat → Nat) (M k : Nat) :
    (xorSum f M) <<< k = xorSum (fun B => f B <<< k) M := by
  induction M with
  | zero => simp [xorSum_zero]
  | succ M ih => rw [xorSum_succ, xorSum_succ, xor_shiftLeft, ih]

theorem stepR_iterate_xorSum (R k : Nat) (f : Nat → Nat) (M : Nat) :
    (stepR R)^[k] (xorSum f M) = xorSum (fun B => (stepR R)^[k] (f B)) M := by
  induction M with
  | zero => rw [xorSum_zero, xorSum_zero, stepR_iterate_zero]
  | succ M ih => rw [xorSum_succ, xorSum_succ, stepR_iterate_xor, ih]

theorem stepF_iterate_xorSum (W Poly k : Nat) (f : Nat → Nat) (M : Nat) :
    (stepF W Poly)^[k] (xorSum f M) = xorSum (fun B => (stepF W Poly)^[k] (f B)) M := by
  induction M with
  | zero => rw [xorSum_zero, xorSum_zero, stepF_iterate_zero]
  | succ M ih => rw [xorSum_succ, xorSum_succ, stepF_iterate_xor, ih]

theorem bit_decomp (K : Nat) : ∀ c, c < 2 ^ K →
    xorSum (fun j => if c.testBit j then 2 ^ j else 0) K = c := by
  induction K with
  | zero =>
    intro c hc
    interval_cases c
    rfl
  | succ K ih =>
    intro c hc
    rw [xorSum_succ]
    have hmodbits : ∀ j, j < K → c.testBit j = (c % 2 ^ K).testBit j := by
      intro j hj
      rw [Nat.testBit_mod_two_pow]
      simp [hj]
    rw [show xorSum (fun j => if c.testBit j then 2 ^ j else 0) K =
        xorSum (fun j => if (c % 2 ^ K).testBit j then 2 ^ j else 0) K from
      xorSum_congr K (fun B hB => by rw [hmodbits B hB]),
      ih (c % 2 ^ K) (Nat.mod_lt _ (Nat.pos_pow_of_pos _ (by norm_num)))]
    rw [Nat.testBit_to_div_mod]
    have hdiv : c / 2 ^ K = 0 ∨ c / 2 ^ K = 1 := by
      have h1 : c / 2 ^ K < 2 := by
        apply Nat.div_lt_of_lt_mul
        rw [pow_succ] at hc
        omega
      exact Nat.le_one_iff_eq_zero_or_eq_one.mp (Nat.lt_succ_iff.mp h1)
    have E := Nat.div_add_mod c (2 ^ K)
    rcases hdiv with h | h
    · have hlt : c < 2 ^ K := by
        by_contra hge
        push_neg at hge
        have h1 : 1 ≤ c / 2 ^ K :=
          (Nat.one_le_div_iff (Nat.pos_pow_of_pos _ (by norm_num))).mpr hge
        omega
      rw [h]
      simp [Nat.mod_eq_of_lt hlt]
    · have hE : 2 ^ K + c % 2 ^ K = c := by
        rw [h, Nat.mul_one] at E
        exact E
      rw [h]
      norm_num
      rw [Nat.xor_comm, two_pow_xor_eq_add (Nat.mod_lt _ (Nat.pos_pow_of_pos _ (by norm_num)))]
      exact hE

theorem top_split (a k : Nat) : a = ((a >>> k) <<< k) ^^^ (a % 2 ^ k) := by
  apply Nat.eq_of_testBit_eq; intro i
  rw [Nat.testBit_xor, Nat.testBit_shiftLeft, Nat.testBit_mod_two_pow]
  rcases Nat.lt_or_ge i k with h | h
  · have h2 : ¬ (i ≥ k) := by omega
    simp [h, h2]
  · have h2 : ¬ (i < k) := by omega
    simp [h, h2, Nat.testBit_shiftRight, show k + (i - k) = i by omega]

theorem low_byte_split (a : Nat) : a = (a &&& 255) ^^^ ((a >>> 8) <<< 8) := by
  rw [Nat.xor_comm, show (255 : Nat) = 2 ^ 8 - 1 by norm_num, land_two_pow_sub_one]
  exact top_split a 8

theorem mod_land_255 (x D : Nat) (hD : 8 ≤ D) : (x % 2 ^ D) &&& 255 = x &&& 255 := by
  apply Nat.eq_of_testBit_eq; intro i
  rw [Nat.testBit_land, Nat.testBit_land, Nat.testBit_mod_two_pow]
  rcases Nat.lt_or_ge i 8 with h | h
  · have h2 : i < D := by omega
    simp [h2]
  · have h2 : (255 : Nat).testBit i = false := by
      apply Nat.testBit_lt_two_pow
      calc (255 : Nat) < 2 ^ 8 := by norm_num
      _ ≤ 2 ^ i := Nat.pow_le_pow_right (by norm_num) h
    simp [h2]

theorem shiftLeft_shiftRight_ge (a m n : Nat) (h : m ≤ n) :
    (a <<< m) >>> n = a >>> (n - m) := by
  apply Nat.eq_of_testBit_eq; intro i
  rw [Nat.testBit_shiftRight, Nat.testBit_shiftLeft, Nat.testBit_shiftRight]
  have h2 : n + i ≥ m := by omega
  simp only [ge_iff_le, h2, decide_eq_true_eq, Bool.true_and]
  rw [show n + i - m = n - m + i by omega]
  simp

theorem shiftLeft_shiftRight_lt (a m n : Nat) (h : n ≤ m) :
    (a <<< m) >>> n = a <<< (m - n) := by
  apply Nat.eq_of_testBit_eq; intro i
  rw [Nat.testBit_shiftRight, Nat.testBit_shiftLeft, Nat.testBit_shiftLeft]
  rcases Nat.lt_or_ge (n + i) m with h2 | h2
  · have h3 : ¬ (n + i ≥ m) := by omega
    have h4 : ¬ (i ≥ m - n) := by omega
    simp [h3, h4]
  · have h3 : (n + i ≥ m) := h2
    have h4 : (i ≥ m - n) := by omega
    simp [h3, h4, show n + i - m = i - (m - n) by omega]

theorem shift_mod_window (crc W k : Nat) (hk : k ≤ W) :
    (crc <<< k) % 2 ^ W = (crc % 2 ^ (W - k)) <<< k := by
  apply Nat.eq_of_testBit_eq; intro i
  rw [Nat.testBit_mod_two_pow, Nat.testBit_shiftLeft, Nat.testBit_shiftLeft,
    Nat.testBit_mod_two_pow]
  rcases Nat.lt_or_ge i W with h | h
  · rcases Nat.lt_or_ge i k with h2 | h2
    · have h3 : ¬ (i ≥ k) := by omega
      simp [h3]
    · have h4 : i - k < W - k := by omega
      simp [h, h2, h4]
  · have h2 : ¬ (i < W) := by omega
    rcases Nat.lt_or_ge i k with h3 | h3
    · have h4 : ¬ (i ≥ k) := by omega
      simp [h2, h4]
    · have h4 : ¬ (i - k < W - k) := by omega
      simp [h2, h3, h4]

theorem mod_shiftLeft_mod (a W k : Nat) :
    ((a % 2 ^ W) <<< k) % 2 ^ W = (a <<< k) % 2 ^ W := by
  rw [Nat.shiftLeft_eq, Nat.shiftLeft_eq, Nat.mul_mod, Nat.mod_mod_of_dvd _ dvd_rfl,
    ← Nat.mul_mod]

/-! ### Table entries as step iterates -/

theorem tblSpec_stepR (W Poly : Nat) (hW1 : 0 < W) (hW : W ≤ 64) (s c : Nat) (hc : c < 256) :
    tblSpec W Poly true s c = (stepR (reflect Poly W))^[8 * s + 8] c := by
  conv_rhs => rw [← bit_decomp 8 c hc]
  rw [stepR_iterate_xorSum]
  unfold tblSpec
  apply xorSum_congr
  intro j hj
  cases hb : c.testBit j
  · simp only [hb, Bool.false_eq_true, if_false, stepR_iterate_zero]
  · simp only [hb, if_true]
    have h2j : (stepR (reflect Poly W))^[j] (2 ^ j) = 1 := by
      rw [show (2 : Nat) ^ j = 1 <<< j from (Nat.one_shiftLeft j).symm,
        stepR_shiftLeft _ 1 j j le_rfl, Nat.sub_self, Nat.shiftLeft_zero]
    have hiter : (stepR (reflect Poly W))^[8 * s + 8] (2 ^ j) =
        (stepR (reflect Poly W))^[8 * s + (7 - j) + 1] 1 := by
      rw [show 8 * s + 8 = (8 * s + (7 - j) + 1) + j by omega,
        Function.iterate_add_apply, h2j]
    rw [hiter, tblChain_refl W Poly hW1 hW]

theorem tblSpec_stepF (W Poly : Nat) (hW8 : 8 ≤ W) (hW : W ≤ 64) (hP : Poly < 2 ^ W)
    (s c : Nat) (hc : c < 256) :
    tblSpec W Poly false s c % 2 ^ W =
      (stepF W Poly)^[8 * s + 8] (c <<< (W - 8)) % 2 ^ W := by
  conv_rhs => rw [← bit_decomp 8 c hc, xorSum_shiftLeft, stepF_iterate_xorSum]
  unfold tblSpec
  rw [xorSum_mod, xorSum_mod]
  apply xorSum_congr
  intro j hj
  cases hb : c.testBit j
  · simp only [hb, Bool.false_eq_true, if_false, Nat.zero_shiftLeft, stepF_iterate_zero]
  · simp only [hb, if_true]
    have hshift : (2 : Nat) ^ j <<< (W - 8) = 1 <<< (W - 8 + j) := by
      rw [show (2 : Nat) ^ j = 1 <<< j by rw [Nat.one_shiftLeft], ← Nat.shiftLeft_add]
      congr 1
      omega
    rw [hshift]
    rw [show 8 * s + 8 = (7 - j) + (8 * s + j + 1) by omega, Nat.add_comm (7 - j) _,
      Function.iterate_add_apply]
    have hstep : (stepF W Poly)^[7 - j] (1 <<< (W - 8 + j)) = 1 <<< (W - 1) := by
      rw [stepF_shiftLeft W Poly 1 1 (7 - j) (W - 8 + j) (by norm_num) (by omega)]
      congr 1
      omega
    rw [hstep]
    exact tblChain_fwd W Poly hW8 hW hP (8 * s + j + 1)

/-! ### Generic linear fold decomposition -/

theorem xorSum_succ_bot (f : Nat → Nat) (M : Nat) :
    xorSum f (M + 1) = f 0 ^^^ xorSum (fun B => f (B + 1)) M := by
  induction M with
  | zero => rw [xorSum_succ, xorSum_zero, xorSum_zero, Nat.zero_xor, Nat.xor_zero]
  | succ M ih => rw [xorSum_succ, ih, xorSum_succ, Nat.xor_assoc]

theorem iterate_linear_xor (f : Nat → Nat) (hf : ∀ x y, f (x ^^^ y) = f x ^^^ f y)
    (t : Nat) : ∀ a b, f^[t] (a ^^^ b) = f^[t] a ^^^ f^[t] b := by
  induction t with
  | zero => intro a b; simp
  | succ t ih =>
    intro a b
    rw [Function.iterate_succ_apply, hf, ih, Function.iterate_succ_apply,
      Function.iterate_succ_apply]

theorem foldl_linear_decomp (f : Nat → Nat) (hf : ∀ x y, f (x ^^^ y) = f x ^^^ f y)
    (g : Nat → Nat) : ∀ (bs : List Nat) (u : Nat),
    bs.foldl (fun c b => f^[8] (c ^^^ g b)) u =
      f^[8 * bs.length] u ^^^
        xorSum (fun B => f^[8 * (bs.length - B)] (g (bs.getD B 0))) bs.length := by
  intro bs
  induction bs with
  | nil => intro u; simp [xorSum_zero]
  | cons b t ih =>
    intro u
    rw [List.foldl_cons, ih, List.length_cons, xorSum_succ_bot]
    have e1 : ∀ B : Nat, t.length + 1 - (B + 1) = t.length - B := by intro B; omega
    have e2 : 8 * (t.length + 1) = 8 * t.length + 8 := by ring
    simp only [List.getD_cons_succ, List.getD_cons_zero, e1, e2, Nat.sub_zero]
    rw [iterate_linear_xor f hf 8 u (g b),
      iterate_linear_xor f hf (8 * t.length) (f^[8] u) (f^[8] (g b)),
      ← Function.iterate_add_apply f (8 * t.length) 8 u,
      ← Function.iterate_add_apply f (8 * t.length) 8 (g b),
      Nat.xor_assoc]

theorem crcRefR_decomp (R : Nat) (bs : List Nat) (u : Nat) :
    bs.foldl (byteStepR R) u =
      (stepR R)^[8 * bs.length] u ^^^
        xorSum (fun B => (stepR R)^[8 * (bs.length - B)] (bs.getD B 0 % 256)) bs.length :=
  foldl_linear_decomp (stepR R) (stepR_xor R) (fun b => b % 256) bs u

theorem crcRefF_decomp (W Poly : Nat) (bs : List Nat) (u : Nat) :
    bs.foldl (byteStepF W Poly) u =
      (stepF W Poly)^[8 * bs.length] u ^^^
        xorSum (fun B => (stepF W Poly)^[8 * (bs.length - B)]
          ((bs.getD B 0 % 256) <<< (W - 8))) bs.length :=
  foldl_linear_decomp (stepF W Poly) (stepF_xor W Poly) (fun b => (b % 256) <<< (W - 8)) bs u

/-! ### Register decomposition into byte windows -/

theorem stepR_byte_peel (R x : Nat) :
    (stepR R)^[8] x = (x >>> 8) ^^^ (stepR R)^[8] (x &&& 255) := by
  conv_lhs => rw [low_byte_split x]
  rw [stepR_iterate_xor, stepR_shiftLeft R (x >>> 8) 8 8 le_rfl, Nat.sub_self,
    Nat.shiftLeft_zero, Nat.xor_comm]

theorem stepR_crc_decomp (R crc : Nat) : ∀ M,
    (stepR R)^[8 * M] crc =
      (crc >>> (8 * M)) ^^^
        xorSum (fun B => (stepR R)^[8 * (M - B)] ((crc >>> (8 * B)) &&& 255)) M := by
  intro M
  induction M with
  | zero => simp [xorSum_zero]
  | succ M ih =>
    rw [show 8 * (M + 1) = 8 + 8 * M by ring, Function.iterate_add_apply, ih,
      stepR_iterate_xor, stepR_byte_peel, stepR_iterate_xorSum]
    rw [show xorSum (fun B => (stepR R)^[8] ((stepR R)^[8 * (M - B)] ((crc >>> (8 * B)) &&& 255))) M
        = xorSum (fun B => (stepR R)^[8 * (M + 1 - B)] ((crc >>> (8 * B)) &&& 255)) M from
      xorSum_congr M (fun B hB => by
        rw [← Function.iterate_add_apply, show 8 + 8 * (M - B) = 8 * (M + 1 - B) by omega])]
    rw [← Nat.shiftRight_add, xorSum_succ, show 8 * M + 8 = 8 + 8 * M by ring,
      show M + 1 - M = 1 by omega, Nat.mul_one, Nat.xor_assoc]
    congr 1
    exact Nat.xor_comm _ _

theorem stepF_byte_peel (W Poly : Nat) (hW8 : 8 ≤ W) (v : Nat) :
    (stepF W Poly)^[8] v =
      (stepF W Poly)^[8] ((v >>> (W - 8)) <<< (W - 8)) ^^^ ((v <<< 8) % 2 ^ W) := by
  conv_lhs => rw [top_split v (W - 8)]
  rw [stepF_iterate_xor]
  congr 1
  have h0 : v % 2 ^ (W - 8) < 2 ^ (W - 8) := Nat.mod_lt _ (Nat.pos_pow_of_pos _ (by norm_num))
  have h1 := stepF_shiftLeft W Poly (v % 2 ^ (W - 8)) (W - 8) 8 0 h0 (by omega)
  rw [Nat.shiftLeft_zero] at h1
  rw [h1, Nat.zero_add, shift_mod_window v W 8 hW8]

theorem stepF_reg_decomp (W Poly : Nat) (hW8 : 8 ≤ W) :
    ∀ M u, u < 2 ^ W →
    (stepF W Poly)^[8 * M] u =
      ((u <<< (8 * M)) % 2 ^ W) ^^^
        xorSum (fun B => (stepF W Poly)^[8 * (M - B)]
          ((((u <<< (8 * B)) % 2 ^ W) >>> (W - 8)) <<< (W - 8))) M := by
  intro M
  induction M with
  | zero =>
    intro u hu
    simp [xorSum_zero, Nat.mod_eq_of_lt hu]
  | succ M ih =>
    intro u hu
    rw [show 8 * (M + 1) = 8 + 8 * M by ring, Function.iterate_add_apply, ih u hu,
      stepF_iterate_xor, stepF_byte_peel W Poly hW8 ((u <<< (8 * M)) % 2 ^ W),
      stepF_iterate_xorSum]
    rw [show xorSum (fun B => (stepF W Poly)^[8]
          ((stepF W Poly)^[8 * (M - B)]
            ((((u <<< (8 * B)) % 2 ^ W) >>> (W - 8)) <<< (W - 8)))) M
        = xorSum (fun B => (stepF W Poly)^[8 * (M + 1 - B)]
            ((((u <<< (8 * B)) % 2 ^ W) >>> (W - 8)) <<< (W - 8))) M from
      xorSum_congr M (fun B hB => by
        rw [← Function.iterate_add_apply, show 8 + 8 * (M - B) = 8 * (M + 1 - B) by omega])]
    rw [mod_shiftLeft_mod, ← Nat.shiftLeft_add, xorSum_succ,
      show 8 * M + 8 = 8 + 8 * M by ring, show M + 1 - M = 1 by omega, Nat.mul_one,
      Nat.xor_assoc, xor_left_comm]
    congr 1
    rw [Nat.xor_comm]

/-! ### The byte windows read by the forward kernel -/

theorem eight_le_digitsOf (W : Nat) : 8 ≤ digitsOf W := by
  unfold digitsOf
  repeat' split
  all_goals omega

theorem fwd_byte_window (W D : Nat) (hW8 : 8 ≤ W) (hWD : W ≤ D) (hD8 : 8 ≤ D) (crc : Nat)
    (hcrc : crc < 2 ^ D) (B : Nat) :
    rshift D crc ((W : Int) - 8 * ((B : Int) + 1)) &&& 255 =
      (((crc % 2 ^ W) <<< (8 * B)) % 2 ^ W) >>> (W - 8) := by
  rcases le_or_lt (8 * (B + 1)) W with hcase | hcase
  · have harg : (W : Int) - 8 * ((B : Int) + 1) = ((W - 8 * (B + 1) : Nat) : Int) := by
      push_cast; omega
    rw [harg, rshift_coe_eq crc hcrc]
    apply Nat.eq_of_testBit_eq; intro i
    rw [show (255 : Nat) = 2 ^ 8 - 1 by norm_num]
    rw [Nat.testBit_land, Nat.testBit_two_pow_sub_one, Nat.testBit_shiftRight,
      Nat.testBit_shiftRight, Nat.testBit_mod_two_pow, Nat.testBit_shiftLeft,
      Nat.testBit_mod_two_pow]
    rcases Nat.lt_or_ge i 8 with hi | hi
    · have he1 : W - 8 + i < W := by omega
      have he2 : 8 * B ≤ W - 8 + i := by omega
      have he3 : W - 8 + i - 8 * B < W := by omega
      have he4 : W - 8 + i - 8 * B = W - 8 * (B + 1) + i := by omega
      have he5 : W - 8 * (B + 1) + i < W := by omega
      simp [hi, he1, he2, he3, he4, he5]
    · have he1 : ¬ (W - 8 + i < W) := by omega
      simp [show ¬ i < 8 by omega, he1]
  · have harg : (W : Int) - 8 * ((B : Int) + 1) = -(((8 * (B + 1) - W : Nat) : Int)) := by
      push_cast; omega
    rw [harg]
    show lshift D crc (- -(((8 * (B + 1) - W : Nat) : Int))) &&& 255 = _
    rw [neg_neg, lshift_coe_eq, mod_land_255 _ _ hD8]
    apply Nat.eq_of_testBit_eq; intro i
    rw [show (255 : Nat) = 2 ^ 8 - 1 by norm_num]
    rw [Nat.testBit_land, Nat.testBit_two_pow_sub_one, Nat.testBit_shiftLeft,
      Nat.testBit_shiftRight, Nat.testBit_mod_two_pow, Nat.testBit_shiftLeft,
      Nat.testBit_mod_two_pow]
    rcases Nat.lt_or_ge i 8 with hi | hi
    · rcases le_or_lt (8 * (B + 1) - W) i with ha | ha
      · have he1 : W - 8 + i < W := by omega
        have he2 : 8 * B ≤ W - 8 + i := by omega
        have he3 : W - 8 + i - 8 * B < W := by omega
        have he4 : W - 8 + i - 8 * B = i - (8 * (B + 1) - W) := by omega
        have he5 : i - (8 * (B + 1) - W) < W := by omega
        simp [hi, ha, he1, he2, he3, he4, he5]
      · have he1 : ¬ (8 * B ≤ W - 8 + i) := by omega
        have he2 : ¬ (8 * (B + 1) - W ≤ i) := by omega
        simp [hi, he1, he2]
    · have he1 : ¬ (W - 8 + i < W) := by omega
      simp [show ¬ i < 8 by omega, he1]

/-! ### Size bounds for the packed tables -/

theorem sliceElemWidth_le (W Poly : Nat) (RefIn : Bool) (s : Nat) :
    sliceElemWidth W Poly RefIn s ≤ W := by
  unfold sliceElemWidth
  cases RefIn
  · simp only [Bool.false_eq_true, if_false]
    exact min_le_left _ _
  · simp

theorem tblChain_lt_D (W Poly : Nat) (RefIn : Bool) (hW1 : 0 < W) (hW : W ≤ 64) (k : Nat) :
    tblChain W Poly RefIn k < 2 ^ digitsOf W := by
  cases k with
  | zero =>
    show (if RefIn then 1 else 1 <<< (W - 1)) < 2 ^ digitsOf W
    cases RefIn
    · simp only [Bool.false_eq_true, if_false, Nat.one_shiftLeft]
      exact Nat.pow_lt_pow_right (by norm_num) (by have := le_digitsOf W hW; omega)
    · simp only [if_true]
      exact lt_of_lt_of_le (by norm_num : (1 : Nat) < 2)
        (Nat.le_self_pow (by have := digitsOf_pos W; omega) 2)
  | succ k =>
    show tblStep W Poly RefIn (k / 8) (tblChain W Poly RefIn k) < 2 ^ digitsOf W
    unfold tblStep
    have hle : (2 : Nat) ^ digitsOf (sliceElemWidth W Poly RefIn (k / 8)) ≤ 2 ^ digitsOf W :=
      Nat.pow_le_pow_right (by norm_num) (digitsOf_mono (sliceElemWidth_le W Poly RefIn (k / 8)))
    cases RefIn <;>
      exact lt_of_lt_of_le (Nat.mod_lt _ (Nat.pos_pow_of_pos _ (by norm_num))) hle

theorem tblSpec_lt_D (W Poly : Nat) (RefIn : Bool) (hW1 : 0 < W) (hW : W ≤ 64) (s c : Nat) :
    tblSpec W Poly RefIn s c < 2 ^ digitsOf W := by
  unfold tblSpec
  apply xorSum_lt
  intro B _
  split
  · exact tblChain_lt_D W Poly RefIn hW1 hW _
  · exact Nat.pos_pow_of_pos _ (by norm_num)

/-! ### The block lemmas: one kernel fold equals the byte-step semantics -/

theorem foldBlock_reflSpec (W Poly M crc : Nat) (chunk : List Nat)
    (hW1 : 0 < W) (hW : W ≤ 64) (hcrc : crc < 2 ^ digitsOf W) (hlen : chunk.length = M) :
    foldBlock W Poly true M crc chunk = chunk.foldl (byteStepR (reflect Poly W)) crc := by
  have e1 : foldBlock W Poly true M crc chunk =
      rshift (digitsOf W) crc ((M : Int) * 8) ^^^
        xorSum (fun B => arrGet (tbl W Poly true (M - 1 - B))
          ((rshift (digitsOf W) crc (8 * (B : Int)) &&& 255) ^^^ (chunk.getD B 0 % 256))) M :=
    foldl_xor_eq_xorSum _ M _
  have hR := crcRefR_decomp (reflect Poly W) chunk crc
  rw [hlen] at hR
  have einit : rshift (digitsOf W) crc ((M : Int) * 8) = crc >>> (8 * M) := by
    rw [show ((M : Nat) : Int) * 8 = ((M * 8 : Nat) : Int) by push_cast; ring,
      rshift_coe_eq crc hcrc, Nat.mul_comm]
  have eterm : ∀ B, B < M →
      arrGet (tbl W Poly true (M - 1 - B))
        ((rshift (digitsOf W) crc (8 * (B : Int)) &&& 255) ^^^ (chunk.getD B 0 % 256)) =
      (stepR (reflect Poly W))^[8 * (M - B)] ((crc >>> (8 * B)) &&& 255) ^^^
        (stepR (reflect Poly W))^[8 * (M - B)] (chunk.getD B 0 % 256) := by
    intro B hB
    rw [show (8 : Int) * (B : Int) = ((8 * B : Nat) : Int) by push_cast; ring,
      rshift_coe_eq crc hcrc]
    have h1 : (crc >>> (8 * B)) &&& 255 < 2 ^ 8 := Nat.lt_succ_of_le Nat.and_le_right
    have h2 : chunk.getD B 0 % 256 < 2 ^ 8 := Nat.mod_lt _ (by norm_num)
    have hidx : ((crc >>> (8 * B)) &&& 255) ^^^ (chunk.getD B 0 % 256) < 256 :=
      Nat.xor_lt_two_pow h1 h2
    rw [tblFill_spec W Poly true (M - 1 - B) hW _ hidx,
      tblSpec_stepR W Poly hW1 hW (M - 1 - B) _ hidx,
      show 8 * (M - 1 - B) + 8 = 8 * (M - B) by omega,
      stepR_iterate_xor]
  rw [e1, hR, stepR_crc_decomp (reflect Poly W) crc M, einit, xorSum_congr M eterm,
    xorSum_xor, Nat.xor_assoc]

theorem foldBlock_fwdSpec (W Poly M crc : Nat) (chunk : List Nat)
    (hW8 : 8 ≤ W) (hW : W ≤ 64) (hP : Poly < 2 ^ W) (hcrc : crc < 2 ^ digitsOf W)
    (hlen : chunk.length = M) :
    foldBlock W Poly false M crc chunk % 2 ^ W =
      chunk.foldl (byteStepF W Poly) (crc % 2 ^ W) := by
  have hWD : W ≤ digitsOf W := le_digitsOf W hW
  have hu : crc % 2 ^ W < 2 ^ W := Nat.mod_lt _ (Nat.pos_pow_of_pos _ (by norm_num))
  have e1 : foldBlock W Poly false M crc chunk =
      lshift (digitsOf W) crc ((M : Int) * 8) ^^^
        xorSum (fun B => arrGet (tbl W Poly false (M - 1 - B))
          ((rshift (digitsOf W) crc ((W : Int) - 8 * ((B : Int) + 1)) &&& 255) ^^^
            (chunk.getD B 0 % 256))) M :=
    foldl_xor_eq_xorSum _ M _
  have hR := crcRefF_decomp W Poly chunk (crc % 2 ^ W)
  rw [hlen] at hR
  have einit : lshift (digitsOf W) crc ((M : Int) * 8) % 2 ^ W =
      (((crc % 2 ^ W) <<< (8 * M)) % 2 ^ W) := by
    rw [show ((M : Nat) : Int) * 8 = ((M * 8 : Nat) : Int) by push_cast; ring,
      lshift_coe_eq, Nat.mod_mod_of_dvd _ (pow_dvd_pow 2 hWD), ← mod_shiftLeft_mod,
      Nat.mul_comm M 8]
  have hdrop : ∀ B x, x < 2 ^ 8 → (stepF W Poly)^[8 * (M - B)] (x <<< (W - 8)) < 2 ^ W := by
    intro B x hx
    apply stepF_iterate_lt hP
    rw [Nat.shiftLeft_eq]
    calc x * 2 ^ (W - 8) < 2 ^ 8 * 2 ^ (W - 8) :=
          (Nat.mul_lt_mul_right (Nat.pos_pow_of_pos _ (by norm_num))).mpr hx
      _ = 2 ^ W := by rw [← pow_add]; congr 1; omega
  have eterm : ∀ B, B < M →
      arrGet (tbl W Poly false (M - 1 - B))
        ((rshift (digitsOf W) crc ((W : Int) - 8 * ((B : Int) + 1)) &&& 255) ^^^
          (chunk.getD B 0 % 256)) % 2 ^ W =
      (stepF W Poly)^[8 * (M - B)]
          (((((crc % 2 ^ W) <<< (8 * B)) % 2 ^ W) >>> (W - 8)) <<< (W - 8)) ^^^
        (stepF W Poly)^[8 * (M - B)] ((chunk.getD B 0 % 256) <<< (W - 8)) := by
    intro B hB
    have h1 : rshift (digitsOf W) crc ((W : Int) - 8 * ((B : Int) + 1)) &&& 255 < 2 ^ 8 :=
      Nat.lt_succ_of_le Nat.and_le_right
    have h2 : chunk.getD B 0 % 256 < 2 ^ 8 := Nat.mod_lt _ (by norm_num)
    have hidx : (rshift (digitsOf W) crc ((W : Int) - 8 * ((B : Int) + 1)) &&& 255) ^^^
        (chunk.getD B 0 % 256) < 256 := Nat.xor_lt_two_pow h1 h2
    rw [tblFill_spec W Poly false (M - 1 - B) hW _ hidx,
      tblSpec_stepF W Poly hW8 hW hP (M - 1 - B) _ hidx,
      show 8 * (M - 1 - B) + 8 = 8 * (M - B) by omega,
      xor_shiftLeft, stepF_iterate_xor, xor_mod_two_pow,
      Nat.mod_eq_of_lt (hdrop B _ h1), Nat.mod_eq_of_lt (hdrop B _ h2),
      fwd_byte_window W (digitsOf W) hW8 hWD (eight_le_digitsOf W) crc hcrc B]
  rw [e1, hR, stepF_reg_decomp W Poly hW8 M (crc % 2 ^ W) hu, xor_mod_two_pow, xorSum_mod,
    einit, xorSum_congr M eterm, xorSum_xor, Nat.xor_assoc]

/-! ### Register bounds along the byte-step semantics -/

theorem byteStepR_lt {D R : Nat} (hD8 : 8 ≤ D) (hR : R < 2 ^ D) {v : Nat} (hv : v < 2 ^ D)
    (b : Nat) : byteStepR R v b < 2 ^ D := by
  unfold byteStepR
  apply stepR_iterate_lt hR
  have hb : b % 256 < 2 ^ 8 := Nat.mod_lt _ (by norm_num)
  exact Nat.xor_lt_two_pow hv (lt_of_lt_of_le hb (Nat.pow_le_pow_right (by norm_num) hD8))

theorem foldl_byteStepR_lt {D R : Nat} (hD8 : 8 ≤ D) (hR : R < 2 ^ D) :
    ∀ (bs : List Nat) {v : Nat}, v < 2 ^ D → bs.foldl (byteStepR R) v < 2 ^ D := by
  intro bs
  induction bs with
  | nil => intro v hv; exact hv
  | cons b t ih =>
    intro v hv
    rw [List.foldl_cons]
    exact ih (byteStepR_lt hD8 hR hv b)

theorem byteStepF_lt {W Poly : Nat} (hP : Poly < 2 ^ W) (hW8 : 8 ≤ W) {v : Nat}
    (hv : v < 2 ^ W) (b : Nat) : byteStepF W Poly v b < 2 ^ W := by
  unfold byteStepF
  apply stepF_iterate_lt hP
  apply Nat.xor_lt_two_pow hv
  rw [Nat.shiftLeft_eq]
  calc b % 256 * 2 ^ (W - 8) < 2 ^ 8 * 2 ^ (W - 8) :=
        (Nat.mul_lt_mul_right (Nat.pos_pow_of_pos _ (by norm_num))).mpr
          (Nat.mod_lt _ (by norm_num))
    _ = 2 ^ W := by rw [← pow_add]; congr 1; omega

theorem foldl_byteStepF_lt {W Poly : Nat} (hP : Poly < 2 ^ W) (hW8 : 8 ≤ W) :
    ∀ (bs : List Nat) {v : Nat}, v < 2 ^ W → bs.foldl (byteStepF W Poly) v < 2 ^ W := by
  intro bs
  induction bs with
  | nil => intro v hv; exact hv
  | cons b t ih =>
    intro v hv
    rw [List.foldl_cons]
    exact ih (byteStepF_lt hP hW8 hv b)

/-! ### The kernel register stays inside its storage type -/

theorem lshift_lt {D : Nat} (n : Nat) (hn : n < 2 ^ D) (b : Int) : lshift D n b < 2 ^ D := by
  unfold lshift
  split
  · exact Nat.pos_pow_of_pos _ (by norm_num)
  · split
    · calc n >>> (Int.natAbs _) ≤ n := by
            rw [Nat.shiftRight_eq_div_pow]; exact Nat.div_le_self _ _
        _ < 2 ^ D := hn
    · exact Nat.mod_lt _ (Nat.pos_pow_of_pos _ (by norm_num))

theorem rshift_lt {D : Nat} (n : Nat) (hn : n < 2 ^ D) (b : Int) : rshift D n b < 2 ^ D :=
  lshift_lt n hn _

theorem foldBlock_lt (W Poly : Nat) (RefIn : Bool) (M crc : Nat) (chunk : List Nat)
    (hW1 : 0 < W) (hW : W ≤ 64) (hcrc : crc < 2 ^ digitsOf W) :
    foldBlock W Poly RefIn M crc chunk < 2 ^ digitsOf W := by
  cases RefIn
  · have e1 : foldBlock W Poly false M crc chunk =
        lshift (digitsOf W) crc ((M : Int) * 8) ^^^
          xorSum (fun B => arrGet (tbl W Poly false (M - 1 - B))
            ((rshift (digitsOf W) crc ((W : Int) - 8 * ((B : Int) + 1)) &&& 255) ^^^
              (chunk.getD B 0 % 256))) M :=
      foldl_xor_eq_xorSum _ M _
    rw [e1]
    apply Nat.xor_lt_two_pow (lshift_lt crc hcrc _)
    apply xorSum_lt
    intro B _
    have h1 : rshift (digitsOf W) crc ((W : Int) - 8 * ((B : Int) + 1)) &&& 255 < 2 ^ 8 :=
      Nat.lt_succ_of_le Nat.and_le_right
    have h2 : chunk.getD B 0 % 256 < 2 ^ 8 := Nat.mod_lt _ (by norm_num)
    have hidx : (rshift (digitsOf W) crc ((W : Int) - 8 * ((B : Int) + 1)) &&& 255) ^^^
        (chunk.getD B 0 % 256) < 256 := Nat.xor_lt_two_pow h1 h2
    rw [tblFill_spec W Poly false (M - 1 - B) hW _ hidx]
    exact tblSpec_lt_D W Poly false hW1 hW _ _
  · have e1 : foldBlock W Poly true M crc chunk =
        rshift (digitsOf W) crc ((M : Int) * 8) ^^^
          xorSum (fun B => arrGet (tbl W Poly true (M - 1 - B))
            ((rshift (digitsOf W) crc (8 * (B : Int)) &&& 255) ^^^ (chunk.getD B 0 % 256))) M :=
      foldl_xor_eq_xorSum _ M _
    rw [e1]
    apply Nat.xor_lt_two_pow (rshift_lt crc hcrc _)
    apply xorSum_lt
    intro B _
    have h1 : rshift (digitsOf W) crc (8 * (B : Int)) &&& 255 < 2 ^ 8 :=
      Nat.lt_succ_of_le Nat.and_le_right
    have h2 : chunk.getD B 0 % 256 < 2 ^ 8 := Nat.mod_lt _ (by norm_num)
    have hidx : (rshift (digitsOf W) crc (8 * (B : Int)) &&& 255) ^^^
        (chunk.getD B 0 % 256) < 256 := Nat.xor_lt_two_pow h1 h2
    rw [tblFill_spec W Poly true (M - 1 - B) hW _ hidx]
    exact tblSpec_lt_D W Poly true hW1 hW _ _

/-! ### The main loop of the sized kernel -/

theorem sliceByMain_reflSpec (W Poly N : Nat) (hW1 : 0 < W) (hW : W ≤ 64) :
    ∀ (blocks : Nat) (bs : List Nat) (crc : Nat), crc < 2 ^ digitsOf W →
      N * blocks ≤ bs.length →
    sliceByMain W Poly true N crc blocks bs =
      ((bs.take (N * blocks)).foldl (byteStepR (reflect Poly W)) crc, bs.drop (N * blocks)) := by
  intro blocks
  induction blocks with
  | zero => intro bs crc hcrc hlen; simp [sliceByMain]
  | succ blocks ih =>
    intro bs crc hcrc hlen
    have hRD : reflect Poly W < 2 ^ digitsOf W :=
      lt_of_lt_of_le (reflect_lt Poly W (by omega))
        (Nat.pow_le_pow_right (by norm_num) (le_digitsOf W hW))
    have hNle : N ≤ bs.length := le_trans (by nlinarith) hlen
    have hlen1 : (bs.take N).length = N := by
      rw [List.length_take]; exact min_eq_left hNle
    show sliceByMain W Poly true N (foldBlock W Poly true N crc (bs.take N)) blocks (bs.drop N) = _
    rw [foldBlock_reflSpec W Poly N crc (bs.take N) hW1 hW hcrc hlen1]
    have hcrc2 : (bs.take N).foldl (byteStepR (reflect Poly W)) crc < 2 ^ digitsOf W :=
      foldl_byteStepR_lt (eight_le_digitsOf W) hRD _ hcrc
    have hlen2 : N * blocks ≤ (bs.drop N).length := by
      rw [List.length_drop]
      have he : N * (blocks + 1) = N * blocks + N := by ring
      omega
    rw [ih (bs.drop N) _ hcrc2 hlen2,
      show N * (blocks + 1) = N + N * blocks by ring, List.take_add, List.foldl_append,
      List.drop_drop]

theorem sliceByMain_fwdSpec (W Poly N : Nat) (hW8 : 8 ≤ W) (hW : W ≤ 64) (hP : Poly < 2 ^ W) :
    ∀ (blocks : Nat) (bs : List Nat) (crc : Nat), crc < 2 ^ digitsOf W →
      N * blocks ≤ bs.length →
    (sliceByMain W Poly false N crc blocks bs).1 % 2 ^ W =
        (bs.take (N * blocks)).foldl (byteStepF W Poly) (crc % 2 ^ W) ∧
      (sliceByMain W Poly false N crc blocks bs).2 = bs.drop (N * blocks) ∧
      (sliceByMain W Poly false N crc blocks bs).1 < 2 ^ digitsOf W := by
  intro blocks
  induction blocks with
  | zero =>
    intro bs crc hcrc hlen
    exact ⟨by simp [sliceByMain], by simp [sliceByMain], by simpa [sliceByMain] using hcrc⟩
  | succ blocks ih =>
    intro bs crc hcrc hlen
    have hW1 : 0 < W := by omega
    have hNle : N ≤ bs.length := le_trans (by nlinarith) hlen
    have hlen1 : (bs.take N).length = N := by
      rw [List.length_take]; exact min_eq_left hNle
    have hcrc2 : foldBlock W Poly false N crc (bs.take N) < 2 ^ digitsOf W :=
      foldBlock_lt W Poly false N crc (bs.take N) hW1 hW hcrc
    have hlen2 : N * blocks ≤ (bs.drop N).length := by
      rw [List.length_drop]
      have he : N * (blocks + 1) = N * blocks + N := by ring
      omega
    have hstep : sliceByMain W Poly false N crc (blocks + 1) bs =
        sliceByMain W Poly false N (foldBlock W Poly false N crc (bs.take N)) blocks
          (bs.drop N) := rfl
    obtain ⟨ha, hb, hc⟩ := ih (bs.drop N) (foldBlock W Poly false N crc (bs.take N)) hcrc2 hlen2
    refine ⟨?_, ?_, ?_⟩
    · rw [hstep, ha, foldBlock_fwdSpec W Poly N crc (bs.take N) hW8 hW hP hcrc hlen1,
        show N * (blocks + 1) = N + N * blocks by ring, List.take_add, List.foldl_append]
    · rw [hstep, hb, List.drop_drop, show N + N * blocks = N * (blocks + 1) by ring]
    · rw [hstep]; exact hc

/-! ### The powers-of-two tail of the kernel -/

theorem sliceByTail_reflStep (W Poly tail_len : Nat) (hW1 : 0 < W) (hW : W ≤ 64) :
    ∀ (K : Nat) (crc : Nat) (bs : List Nat), crc < 2 ^ digitsOf W → tail_len ≤ bs.length →
    (List.range K).foldl (fun st P =>
        if tail_len &&& (1 <<< P) != 0 then
          (foldBlock W Poly true (1 <<< P) st.1 (st.2.take (1 <<< P)), st.2.drop (1 <<< P))
        else st) ((crc, bs) : Nat × List Nat) =
      ((bs.take (tail_len % 2 ^ K)).foldl (byteStepR (reflect Poly W)) crc,
        bs.drop (tail_len % 2 ^ K)) := by
  intro K
  induction K with
  | zero =>
    intro crc bs hcrc hlen
    simp [Nat.mod_one]
  | succ K ih =>
    intro crc bs hcrc hlen
    have hRD : reflect Poly W < 2 ^ digitsOf W :=
      lt_of_lt_of_le (reflect_lt Poly W (by omega))
        (Nat.pow_le_pow_right (by norm_num) (le_digitsOf W hW))
    rw [List.range_succ, List.foldl_append, ih crc bs hcrc hlen, List.foldl_cons,
      List.foldl_nil]
    have hcond : (tail_len &&& (1 <<< K) != 0) = tail_len.testBit K := bit_is_set_eq tail_len K
    rw [hcond]
    have hmp : tail_len % 2 ^ (K + 1) = tail_len % 2 ^ K + 2 ^ K * (tail_len / 2 ^ K % 2) :=
      Nat.mod_pow_succ
    have hmle : tail_len % 2 ^ (K + 1) ≤ tail_len := Nat.mod_le _ _
    cases htb : tail_len.testBit K
    · have hz : tail_len / 2 ^ K % 2 = 0 := by
        rw [Nat.testBit_to_div_mod] at htb
        simpa using htb
      rw [hz] at hmp
      rw [if_neg (by simp), show tail_len % 2 ^ (K + 1) = tail_len % 2 ^ K by omega]
    · have ho : tail_len / 2 ^ K % 2 = 1 := by
        rw [Nat.testBit_to_div_mod] at htb
        simpa using htb
      rw [ho] at hmp
      have hpos : tail_len % 2 ^ (K + 1) = tail_len % 2 ^ K + 2 ^ K := by omega
      rw [if_pos rfl]
      have hlen1 : ((bs.drop (tail_len % 2 ^ K)).take (1 <<< K)).length = 1 <<< K := by
        rw [List.length_take]
        apply min_eq_left
        rw [List.length_drop, Nat.one_shiftLeft]
        omega
      have hcrc2 : (bs.take (tail_len % 2 ^ K)).foldl (byteStepR (reflect Poly W)) crc <
          2 ^ digitsOf W := foldl_byteStepR_lt (eight_le_digitsOf W) hRD _ hcrc
      rw [foldBlock_reflSpec W Poly (1 <<< K) _ _ hW1 hW hcrc2 hlen1,
        Nat.one_shiftLeft, ← List.foldl_append, ← List.take_add, List.drop_drop, hpos]

theorem sliceByTail_fwdStep (W Poly tail_len : Nat) (hW8 : 8 ≤ W) (hW : W ≤ 64)
    (hP : Poly < 2 ^ W) :
    ∀ (K : Nat) (crc : Nat) (bs : List Nat), crc < 2 ^ digitsOf W → tail_len ≤ bs.length →
    ((List.range K).foldl (fun st P =>
        if tail_len &&& (1 <<< P) != 0 then
          (foldBlock W Poly false (1 <<< P) st.1 (st.2.take (1 <<< P)), st.2.drop (1 <<< P))
        else st) ((crc, bs) : Nat × List Nat)).1 % 2 ^ W =
        (bs.take (tail_len % 2 ^ K)).foldl (byteStepF W Poly) (crc % 2 ^ W) ∧
      ((List.range K).foldl (fun st P =>
        if tail_len &&& (1 <<< P) != 0 then
          (foldBlock W Poly false (1 <<< P) st.1 (st.2.take (1 <<< P)), st.2.drop (1 <<< P))
        else st) ((crc, bs) : Nat × List Nat)).2 = bs.drop (tail_len % 2 ^ K) ∧
      ((List.range K).foldl (fun st P =>
        if tail_len &&& (1 <<< P) != 0 then
          (foldBlock W Poly false (1 <<< P) st.1 (st.2.take (1 <<< P)), st.2.drop (1 <<< P))
        else st) ((crc, bs) : Nat × List Nat)).1 < 2 ^ digitsOf W := by
  intro K
  induction K with
  | zero =>
    intro crc bs hcrc hlen
    exact ⟨by simp [Nat.mod_one], by simp [Nat.mod_one], by simpa using hcrc⟩
  | succ K ih =>
    intro crc bs hcrc hlen
    have hW1 : 0 < W := by omega
    obtain ⟨ha, hb, hc⟩ := ih crc bs hcrc hlen
    rw [List.range_succ, List.foldl_append, List.foldl_cons, List.foldl_nil]
    have hcond : (tail_len &&& (1 <<< K) != 0) = tail_len.testBit K := bit_is_set_eq tail_len K
    rw [hcond]
    have hmp : tail_len % 2 ^ (K + 1) = tail_len % 2 ^ K + 2 ^ K * (tail_len / 2 ^ K % 2) :=
      Nat.mod_pow_succ
    have hmle : tail_len % 2 ^ (K + 1) ≤ tail_len := Nat.mod_le _ _
    cases htb : tail_len.testBit K
    · have hz : tail_len / 2 ^ K % 2 = 0 := by
        rw [Nat.testBit_to_div_mod] at htb
        simpa using htb
      rw [hz] at hmp
      rw [if_neg (by simp), show tail_len % 2 ^ (K + 1) = tail_len % 2 ^ K by omega]
      exact ⟨ha, hb, hc⟩
    · have ho : tail_len / 2 ^ K % 2 = 1 := by
        rw [Nat.testBit_to_div_mod] at htb
        simpa using htb
      rw [ho] at hmp
      have hpos : tail_len % 2 ^ (K + 1) = tail_len % 2 ^ K + 2 ^ K := by omega
      rw [if_pos rfl, hpos, hb]
      have hlen1 : ((bs.drop (tail_len % 2 ^ K)).take (1 <<< K)).length = 1 <<< K := by
        rw [List.length_take]
        apply min_eq_left
        rw [List.length_drop, Nat.one_shiftLeft]
        omega
      refine ⟨?_, ?_, ?_⟩
      · rw [foldBlock_fwdSpec W Poly (1 <<< K) _ _ hW8 hW hP hc hlen1, ha,
          Nat.one_shiftLeft, ← List.foldl_append, ← List.take_add]
      · rw [List.drop_drop, Nat.one_shiftLeft]
      · exact foldBlock_lt W Poly false (1 <<< K) _ _ hW1 hW hc

/-! ### The sized slice kernel computes the byte-step semantics -/

theorem process_slice_spec (W Poly : Nat) (RefIn : Bool) (N crc : Nat) (bytes : List Nat)
    (hW8 : 8 ≤ W) (hW : W ≤ 64) (hP : Poly < 2 ^ W) (hN : 1 ≤ N) (hN64 : N ≤ 2 ^ 64)
    (hcrc : crc < 2 ^ W) :
    process_fn_impl_slice W Poly RefIn N crc bytes = crcRef W Poly RefIn crc bytes % 2 ^ W := by
  have hW1 : 0 < W := by omega
  have hWD : W ≤ digitsOf W := le_digitsOf W hW
  have hcrcD : crc < 2 ^ digitsOf W :=
    lt_of_lt_of_le hcrc (Nat.pow_le_pow_right (by norm_num) hWD)
  have hdam := Nat.div_add_mod bytes.length N
  have hdvd : N ∣ (bytes.length - bytes.length % N) := ⟨bytes.length / N, by omega⟩
  have htail_le : bytes.length % N ≤ bytes.length := Nat.mod_le _ _
  have hmain : N * ((bytes.length - bytes.length % N) / N) = bytes.length - bytes.length % N :=
    Nat.mul_div_cancel' hdvd
  have hmain_le : N * ((bytes.length - bytes.length % N) / N) ≤ bytes.length := by omega
  have htail_lt : bytes.length % N < 2 ^ bitWidth (N - 1) := by
    have h1 : bytes.length % N < N := Nat.mod_lt _ (by omega)
    have h2 : N - 1 < 2 ^ 64 := by
      have h3 : (2 : Nat) ^ 64 = 18446744073709551616 := by norm_num
      omega
    exact lt_of_le_of_lt (by omega) (lt_two_pow_bitWidth h2)
  cases RefIn
  · obtain ⟨ha, hb, hc⟩ := sliceByMain_fwdSpec W Poly N hW8 hW hP
      ((bytes.length - bytes.length % N) / N) bytes crc hcrcD hmain_le
    have hlen2 : bytes.length % N ≤
        (sliceByMain W Poly false N crc ((bytes.length - bytes.length % N) / N) bytes).2.length := by
      rw [hb, List.length_drop, hmain]
      omega
    obtain ⟨ta, tb, tc⟩ := sliceByTail_fwdStep W Poly (bytes.length % N) hW8 hW hP
      (bitWidth (N - 1))
      (sliceByMain W Poly false N crc ((bytes.length - bytes.length % N) / N) bytes).1
      (sliceByMain W Poly false N crc ((bytes.length - bytes.length % N) / N) bytes).2
      hc hlen2
    show sliceByTail W Poly false N (bytes.length % N)
        (sliceByMain W Poly false N crc ((bytes.length - bytes.length % N) / N) bytes).1
        (sliceByMain W Poly false N crc ((bytes.length - bytes.length % N) / N) bytes).2 &&&
        bottom_n_mask (digitsOf W) W = _
    rw [land_mask_eq_mod hW1 hWD]
    unfold sliceByTail
    rw [ta, Nat.mod_eq_of_lt htail_lt, ha, hb, hmain, ← List.foldl_append, ← List.take_add]
    have hall : bytes.length - bytes.length % N + bytes.length % N = bytes.length := by omega
    rw [hall, List.take_length]
    show _ = bytes.foldl (byteStepF W Poly) crc % 2 ^ W
    rw [Nat.mod_eq_of_lt hcrc,
      Nat.mod_eq_of_lt (foldl_byteStepF_lt hP hW8 bytes hcrc)]
  · obtain hmainspec := sliceByMain_reflSpec W Poly N hW1 hW
      ((bytes.length - bytes.length % N) / N) bytes crc hcrcD hmain_le
    have hRD : reflect Poly W < 2 ^ digitsOf W :=
      lt_of_lt_of_le (reflect_lt Poly W (by omega))
        (Nat.pow_le_pow_right (by norm_num) hWD)
    show sliceByTail W Poly true N (bytes.length % N)
        (sliceByMain W Poly true N crc ((bytes.length - bytes.length % N) / N) bytes).1
        (sliceByMain W Poly true N crc ((bytes.length - bytes.length % N) / N) bytes).2 &&&
        bottom_n_mask (digitsOf W) W = _
    rw [land_mask_eq_mod hW1 hWD, hmainspec]
    have hcrc2 : (bytes.take (N * ((bytes.length - bytes.length % N) / N))).foldl
        (byteStepR (reflect Poly W)) crc < 2 ^ digitsOf W :=
      foldl_byteStepR_lt (eight_le_digitsOf W) hRD _ hcrcD
    have hlen2 : bytes.length % N ≤ (bytes.drop (N * ((bytes.length - bytes.length % N) / N))).length := by
      rw [List.length_drop, hmain]
      omega
    unfold sliceByTail
    rw [sliceByTail_reflStep W Poly (bytes.length % N) hW1 hW (bitWidth (N - 1)) _ _ hcrc2 hlen2,
      Nat.mod_eq_of_lt htail_lt, hmain, ← List.foldl_append, ← List.take_add]
    have hall : bytes.length - bytes.length % N + bytes.length % N = bytes.length := by omega
    rw [hall, List.take_length]
    rfl

/-! ### Single-step distribution over xorSum -/

theorem stepR_xorSum (R : Nat) (f : Nat → Nat) (M : Nat) :
    stepR R (xorSum f M) = xorSum (fun B => stepR R (f B)) M := by
  have h := stepR_iterate_xorSum R 1 f M
  simpa using h

theorem stepF_xorSum (W Poly : Nat) (f : Nat → Nat) (M : Nat) :
    stepF W Poly (xorSum f M) = xorSum (fun B => stepF W Poly (f B)) M := by
  have h := stepF_iterate_xorSum W Poly 1 f M
  simpa using h

theorem xorSum_rev (f : Nat → Nat) : ∀ M, xorSum (fun i => f (M - 1 - i)) M = xorSum f M := by
  intro M
  induction M with
  | zero => rfl
  | succ M ih =>
    rw [xorSum_succ_bot]
    rw [show xorSum (fun B => f (M + 1 - 1 - (B + 1))) M = xorSum (fun B => f (M - 1 - B)) M from
      xorSum_congr M (fun B hB => by rw [show M + 1 - 1 - (B + 1) = M - 1 - B by omega])]
    rw [ih, show M + 1 - 1 - 0 = M by omega, xorSum_succ, Nat.xor_comm]

/-! ### The carry-less multiply: fold characterization -/

theorem clmulR_fold (W Poly : Nat) (hW1 : 0 < W) (hW : W ≤ 64) (lhs rhs : Nat)
    (hrhs : rhs < 2 ^ W) : ∀ K,
    (List.range K).foldl (fun r i =>
        ((r >>> 1) ^^^ (cond (bit_is_set r 0) (reflect Poly W) 0) ^^^
          (cond (bit_is_set lhs i) rhs 0)) % 2 ^ digitsOf W) 0 =
      xorSum (fun i => if lhs.testBit i then (stepR (reflect Poly W))^[K - 1 - i] rhs else 0) K ∧
    (List.range K).foldl (fun r i =>
        ((r >>> 1) ^^^ (cond (bit_is_set r 0) (reflect Poly W) 0) ^^^
          (cond (bit_is_set lhs i) rhs 0)) % 2 ^ digitsOf W) 0 < 2 ^ W := by
  have hRlt : reflect Poly W < 2 ^ W := reflect_lt Poly W (by omega)
  intro K
  induction K with
  | zero =>
    constructor
    · rfl
    · exact Nat.pos_pow_of_pos _ (by norm_num)
  | succ K ih =>
    obtain ⟨ihe, ihl⟩ := ih
    have hstep_lt : stepR (reflect Poly W) ((List.range K).foldl (fun r i =>
        ((r >>> 1) ^^^ (cond (bit_is_set r 0) (reflect Poly W) 0) ^^^
          (cond (bit_is_set lhs i) rhs 0)) % 2 ^ digitsOf W) 0) ^^^
        (cond (lhs.testBit K) rhs 0) < 2 ^ W := by
      apply Nat.xor_lt_two_pow (stepR_lt hRlt ihl)
      cases lhs.testBit K
      · exact Nat.pos_pow_of_pos _ (by norm_num)
      · exact hrhs
    have hG1 : (List.range (K + 1)).foldl (fun r i =>
        ((r >>> 1) ^^^ (cond (bit_is_set r 0) (reflect Poly W) 0) ^^^
          (cond (bit_is_set lhs i) rhs 0)) % 2 ^ digitsOf W) 0 =
        stepR (reflect Poly W) ((List.range K).foldl (fun r i =>
          ((r >>> 1) ^^^ (cond (bit_is_set r 0) (reflect Poly W) 0) ^^^
            (cond (bit_is_set lhs i) rhs 0)) % 2 ^ digitsOf W) 0) ^^^
          (cond (lhs.testBit K) rhs 0) := by
      rw [List.range_succ, List.foldl_append, List.foldl_cons, List.foldl_nil]
      show (((List.range K).foldl (fun r i =>
          ((r >>> 1) ^^^ (cond (bit_is_set r 0) (reflect Poly W) 0) ^^^
            (cond (bit_is_set lhs i) rhs 0)) % 2 ^ digitsOf W) 0 >>> 1) ^^^
          (cond (bit_is_set ((List.range K).foldl (fun r i =>
            ((r >>> 1) ^^^ (cond (bit_is_set r 0) (reflect Poly W) 0) ^^^
              (cond (bit_is_set lhs i) rhs 0)) % 2 ^ digitsOf W) 0) 0) (reflect Poly W) 0) ^^^
          (cond (bit_is_set lhs K) rhs 0)) % 2 ^ digitsOf W = _
      rw [bit_is_set_eq, bit_is_set_eq]
      exact Nat.mod_eq_of_lt (lt_of_lt_of_le hstep_lt
        (Nat.pow_le_pow_right (by norm_num) (le_digitsOf W hW)))
    constructor
    · rw [hG1, ihe, stepR_xorSum, xorSum_succ]
      congr 1
      · apply xorSum_congr
        intro i hi
        cases hb : lhs.testBit i
        · simp [stepR_zero]
        · simp only [hb, if_true]
          rw [← Function.iterate_succ_apply' (stepR (reflect Poly W)) (K - 1 - i) rhs,
            show (K - 1 - i).succ = K + 1 - 1 - i by omega]
      · cases hb : lhs.testBit K
        · simp
        · simp
    · rw [hG1]
      exact hstep_lt

theorem clmulR_spec (W Poly : Nat) (hW1 : 0 < W) (hW : W ≤ 64) (lhs rhs : Nat)
    (hrhs : rhs < 2 ^ W) :
    clmul_over_field W Poly true lhs rhs =
      xorSum (fun i => if lhs.testBit i then (stepR (reflect Poly W))^[W - 1 - i] rhs else 0)
        W := by
  obtain ⟨he, hl⟩ := clmulR_fold W Poly hW1 hW lhs rhs hrhs W
  show ((List.range W).foldl (fun r i =>
      ((r >>> 1) ^^^ (cond (bit_is_set r 0) (reflect Poly W) 0) ^^^
        (cond (bit_is_set lhs i) rhs 0)) % 2 ^ digitsOf W) 0) &&&
      bottom_n_mask (digitsOf W) W = _
  rw [land_mask_eq_mod hW1 (le_digitsOf W hW), Nat.mod_eq_of_lt hl, he]

theorem clmulF_fold (W Poly : Nat) (hW1 : 0 < W) (hW : W ≤ 64) (hP : Poly < 2 ^ W)
    (lhs rhs : Nat) (hrhs : rhs < 2 ^ W) : ∀ K,
    (List.range K).foldl (fun r i =>
        ((r <<< 1) ^^^ (cond (bit_is_set r (W - 1)) Poly 0) ^^^
          (cond (bit_is_set lhs (W - 1 - i)) rhs 0)) % 2 ^ digitsOf W) 0 % 2 ^ W =
      xorSum (fun i => if lhs.testBit (W - 1 - i) then (stepF W Poly)^[K - 1 - i] rhs else 0)
        K := by
  have hWD : W ≤ digitsOf W := le_digitsOf W hW
  intro K
  induction K with
  | zero => rfl
  | succ K ih =>
    have hbit : ((List.range K).foldl (fun r i =>
        ((r <<< 1) ^^^ (cond (bit_is_set r (W - 1)) Poly 0) ^^^
          (cond (bit_is_set lhs (W - 1 - i)) rhs 0)) % 2 ^ digitsOf W) 0).testBit (W - 1) =
        (xorSum (fun i => if lhs.testBit (W - 1 - i) then (stepF W Poly)^[K - 1 - i] rhs else 0)
          K).testBit (W - 1) := by
      rw [← ih, Nat.testBit_mod_two_pow]
      simp [show W - 1 < W by omega]
    have hcondP : cond (bit_is_set ((List.range K).foldl (fun r i =>
        ((r <<< 1) ^^^ (cond (bit_is_set r (W - 1)) Poly 0) ^^^
          (cond (bit_is_set lhs (W - 1 - i)) rhs 0)) % 2 ^ digitsOf W) 0) (W - 1)) Poly 0 %
        2 ^ W =
        cond ((xorSum (fun i => if lhs.testBit (W - 1 - i) then
          (stepF W Poly)^[K - 1 - i] rhs else 0) K).testBit (W - 1)) Poly 0 := by
      rw [bit_is_set_eq, hbit]
      cases (xorSum (fun i => if lhs.testBit (W - 1 - i) then
          (stepF W Poly)^[K - 1 - i] rhs else 0) K).testBit (W - 1)
      · simp
      · simp [Nat.mod_eq_of_lt hP]
    have hcondR : cond (bit_is_set lhs (W - 1 - K)) rhs 0 % 2 ^ W =
        cond (lhs.testBit (W - 1 - K)) rhs 0 := by
      rw [bit_is_set_eq]
      cases lhs.testBit (W - 1 - K)
      · simp
      · simp [Nat.mod_eq_of_lt hrhs]
    have hG1 : (List.range (K + 1)).foldl (fun r i =>
        ((r <<< 1) ^^^ (cond (bit_is_set r (W - 1)) Poly 0) ^^^
          (cond (bit_is_set lhs (W - 1 - i)) rhs 0)) % 2 ^ digitsOf W) 0 % 2 ^ W =
        stepF W Poly (xorSum (fun i => if lhs.testBit (W - 1 - i) then
          (stepF W Poly)^[K - 1 - i] rhs else 0) K) ^^^
          cond (lhs.testBit (W - 1 - K)) rhs 0 := by
      rw [List.range_succ, List.foldl_append, List.foldl_cons, List.foldl_nil]
      show ((((List.range K).foldl (fun r i =>
          ((r <<< 1) ^^^ (cond (bit_is_set r (W - 1)) Poly 0) ^^^
            (cond (bit_is_set lhs (W - 1 - i)) rhs 0)) % 2 ^ digitsOf W) 0 <<< 1) ^^^
          (cond (bit_is_set ((List.range K).foldl (fun r i =>
            ((r <<< 1) ^^^ (cond (bit_is_set r (W - 1)) Poly 0) ^^^
              (cond (bit_is_set lhs (W - 1 - i)) rhs 0)) % 2 ^ digitsOf W) 0) (W - 1)) Poly 0) ^^^
          (cond (bit_is_set lhs (W - 1 - K)) rhs 0)) % 2 ^ digitsOf W) % 2 ^ W = _
      rw [Nat.mod_mod_of_dvd _ (pow_dvd_pow 2 hWD), xor_mod_two_pow, xor_mod_two_pow,
        ← mod_shiftLeft_mod, ih, hcondP, hcondR]
      rfl
    rw [hG1, stepF_xorSum, xorSum_succ]
    congr 1
    · apply xorSum_congr
      intro i hi
      cases hb : lhs.testBit (W - 1 - i)
      · simp [stepF_zero]
      · simp only [hb, if_true]
        rw [← Function.iterate_succ_apply' (stepF W Poly) (K - 1 - i) rhs,
          show (K - 1 - i).succ = K + 1 - 1 - i by omega]
    · cases hb : lhs.testBit (W - 1 - K)
      · simp
      · simp

theorem clmulF_spec (W Poly : Nat) (hW1 : 0 < W) (hW : W ≤ 64) (hP : Poly < 2 ^ W)
    (lhs rhs : Nat) (hrhs : rhs < 2 ^ W) :
    clmul_over_field W Poly false lhs rhs =
      xorSum (fun i => if lhs.testBit (W - 1 - i) then (stepF W Poly)^[W - 1 - i] rhs else 0)
        W := by
  have h := clmulF_fold W Poly hW1 hW hP lhs rhs hrhs W
  show ((List.range W).foldl (fun r i =>
      ((r <<< 1) ^^^ (cond (bit_is_set r (W - 1)) Poly 0) ^^^
        (cond (bit_is_set lhs (W - 1 - i)) rhs 0)) % 2 ^ digitsOf W) 0) &&&
      bottom_n_mask (digitsOf W) W = _
  rw [land_mask_eq_mod hW1 (le_digitsOf W hW), h]

/-! ### The carry-less multiply implements iterated stepping -/

theorem clmulR_iterate (W Poly : Nat) (hW1 : 0 < W) (hW : W ≤ 64) (a t : Nat)
    (ha : a < 2 ^ W) :
    clmul_over_field W Poly true a ((stepR (reflect Poly W))^[t] (1 <<< (W - 1))) =
      (stepR (reflect Poly W))^[t] a := by
  have hRlt : reflect Poly W < 2 ^ W := reflect_lt Poly W (by omega)
  have htop : (1 : Nat) <<< (W - 1) < 2 ^ W := by
    rw [Nat.one_shiftLeft]
    exact Nat.pow_lt_pow_right (by norm_num) (by omega)
  have hc : (stepR (reflect Poly W))^[t] (1 <<< (W - 1)) < 2 ^ W :=
    stepR_iterate_lt hRlt t htop
  rw [clmulR_spec W Poly hW1 hW a _ hc]
  conv_rhs => rw [← bit_decomp W a ha]
  rw [stepR_iterate_xorSum]
  apply xorSum_congr
  intro i hi
  cases hb : a.testBit i
  · simp [stepR_iterate_zero]
  · simp only [hb, if_true]
    have h2i : (stepR (reflect Poly W))^[W - 1 - i] (1 <<< (W - 1)) = 2 ^ i := by
      rw [stepR_shiftLeft _ 1 (W - 1 - i) (W - 1) (by omega),
        show W - 1 - (W - 1 - i) = i by omega, Nat.one_shiftLeft]
    rw [← Function.iterate_add_apply,
      show (2 : Nat) ^ i = (stepR (reflect Poly W))^[W - 1 - i] (1 <<< (W - 1)) from h2i.symm,
      ← Function.iterate_add_apply, show W - 1 - i + t = t + (W - 1 - i) by ring]

theorem clmulF_iterate (W Poly : Nat) (hW1 : 0 < W) (hW : W ≤ 64) (hP : Poly < 2 ^ W)
    (a t : Nat) (ha : a < 2 ^ W) :
    clmul_over_field W Poly false a ((stepF W Poly)^[t] 1) = (stepF W Poly)^[t] a := by
  have h1 : (1 : Nat) < 2 ^ W := Nat.one_lt_two_pow (by omega)
  have hc : (stepF W Poly)^[t] 1 < 2 ^ W := stepF_iterate_lt hP t h1
  rw [clmulF_spec W Poly hW1 hW hP a _ hc]
  rw [show xorSum (fun i => if a.testBit (W - 1 - i) then
      (stepF W Poly)^[W - 1 - i] ((stepF W Poly)^[t] 1) else 0) W =
    xorSum (fun j => if a.testBit j then (stepF W Poly)^[j] ((stepF W Poly)^[t] 1) else 0) W from
    xorSum_rev (fun j => if a.testBit j then (stepF W Poly)^[j] ((stepF W Poly)^[t] 1) else 0) W]
  conv_rhs => rw [← bit_decomp W a ha]
  rw [stepF_iterate_xorSum]
  apply xorSum_congr
  intro j hj
  cases hb : a.testBit j
  · simp [stepF_iterate_zero]
  · simp only [hb, if_true]
    have h2j : (stepF W Poly)^[j] 1 = 2 ^ j := by
      have h := stepF_shiftLeft W Poly 1 1 j 0 (by norm_num) (by omega)
      rw [Nat.shiftLeft_zero] at h
      rw [h, Nat.zero_add, Nat.one_shiftLeft]
    rw [← Function.iterate_add_apply,
      show (2 : Nat) ^ j = (stepF W Poly)^[j] 1 from h2j.symm,
      ← Function.iterate_add_apply, show j + t = t + j by ring]

/-! ### Folding constants are iterated-step images -/

theorem folding_constants_reflSpec (W Poly : Nat) (hW8 : 8 ≤ W) (hW : W ≤ 64) :
    ∀ k, folding_constants W Poly true k =
      (stepR (reflect Poly W))^[8 * 2 ^ k] (1 <<< (W - 1)) := by
  have hW1 : 0 < W := by omega
  have hRlt : reflect Poly W < 2 ^ W := reflect_lt Poly W (by omega)
  have htop : (1 : Nat) <<< (W - 1) < 2 ^ W := by
    rw [Nat.one_shiftLeft]
    exact Nat.pow_lt_pow_right (by norm_num) (by omega)
  intro k
  induction k with
  | zero =>
    show clmul_over_field W Poly true (1 <<< (W - 5)) (1 <<< (W - 5)) = _
    have hseed : (1 : Nat) <<< (W - 5) = (stepR (reflect Poly W))^[4] (1 <<< (W - 1)) := by
      rw [stepR_shiftLeft _ 1 4 (W - 1) (by omega), show W - 1 - 4 = W - 5 by omega]
    rw [hseed, clmulR_iterate W Poly hW1 hW _ 4 (stepR_iterate_lt hRlt 4 htop),
      ← Function.iterate_add_apply]
    norm_num
  | succ k ih =>
    show clmul_over_field W Poly true (folding_constants W Poly true k)
        (folding_constants W Poly true k) = _
    rw [ih, clmulR_iterate W Poly hW1 hW _ _ (stepR_iterate_lt hRlt _ htop),
      ← Function.iterate_add_apply, show 8 * 2 ^ k + 8 * 2 ^ k = 8 * 2 ^ (k + 1) by ring]

theorem folding_constants_fwdSpec (W Poly : Nat) (hW8 : 8 ≤ W) (hW : W ≤ 64)
    (hP : Poly < 2 ^ W) :
    ∀ k, folding_constants W Poly false k = (stepF W Poly)^[8 * 2 ^ k] 1 := by
  have hW1 : 0 < W := by omega
  have h1 : (1 : Nat) < 2 ^ W := Nat.one_lt_two_pow (by omega)
  intro k
  induction k with
  | zero =>
    show clmul_over_field W Poly false (1 <<< 4) (1 <<< 4) = _
    have hseed : (1 : Nat) <<< 4 = (stepF W Poly)^[4] 1 := by
      have h := stepF_shiftLeft W Poly 1 1 4 0 (by norm_num) (by omega)
      rw [Nat.shiftLeft_zero] at h
      rw [h, Nat.zero_add]
    rw [hseed, clmulF_iterate W Poly hW1 hW hP _ 4 (stepF_iterate_lt hP 4 h1),
      ← Function.iterate_add_apply]
    norm_num
  | succ k ih =>
    show clmul_over_field W Poly false (folding_constants W Poly false k)
        (folding_constants W Poly false k) = _
    rw [ih, clmulF_iterate W Poly hW1 hW hP _ _ (stepF_iterate_lt hP _ h1),
      ← Function.iterate_add_apply, show 8 * 2 ^ k + 8 * 2 ^ k = 8 * 2 ^ (k + 1) by ring]

/-! ### process_zero_bytes is iterated stepping -/

theorem pzb_core_reflSpec (W Poly : Nat) (hW8 : 8 ≤ W) (hW : W ≤ 64) (state n : Nat)
    (hstate : state < 2 ^ W) : ∀ K,
    (List.range K).foldl (fun s i =>
        if bit_is_set n i then clmul_over_field W Poly true s (folding_constants W Poly true i)
        else s) state = (stepR (reflect Poly W))^[8 * (n % 2 ^ K)] state := by
  have hW1 : 0 < W := by omega
  have hRlt : reflect Poly W < 2 ^ W := reflect_lt Poly W (by omega)
  intro K
  induction K with
  | zero => simp [Nat.mod_one]
  | succ K ih =>
    rw [List.range_succ, List.foldl_append, List.foldl_cons, List.foldl_nil, ih]
    have hcond : bit_is_set n K = n.testBit K := bit_is_set_eq n K
    rw [hcond]
    have hmp : n % 2 ^ (K + 1) = n % 2 ^ K + 2 ^ K * (n / 2 ^ K % 2) := Nat.mod_pow_succ
    cases htb : n.testBit K
    · have hz : n / 2 ^ K % 2 = 0 := by
        rw [Nat.testBit_to_div_mod] at htb
        simpa using htb
      rw [hz] at hmp
      rw [if_neg (by simp), show n % 2 ^ (K + 1) = n % 2 ^ K by omega]
    · have ho : n / 2 ^ K % 2 = 1 := by
        rw [Nat.testBit_to_div_mod] at htb
        simpa using htb
      rw [ho] at hmp
      rw [if_pos rfl, folding_constants_reflSpec W Poly hW8 hW K,
        clmulR_iterate W Poly hW1 hW _ _ (stepR_iterate_lt hRlt _ hstate),
        ← Function.iterate_add_apply,
        show 8 * 2 ^ K + 8 * (n % 2 ^ K) = 8 * (n % 2 ^ (K + 1)) by omega]

theorem pzb_core_fwdSpec (W Poly : Nat) (hW8 : 8 ≤ W) (hW : W ≤ 64) (hP : Poly < 2 ^ W)
    (state n : Nat) (hstate : state < 2 ^ W) : ∀ K,
    (List.range K).foldl (fun s i =>
        if bit_is_set n i then clmul_over_field W Poly false s (folding_constants W Poly false i)
        else s) state = (stepF W Poly)^[8 * (n % 2 ^ K)] state := by
  have hW1 : 0 < W := by omega
  intro K
  induction K with
  | zero => simp [Nat.mod_one]
  | succ K ih =>
    rw [List.range_succ, List.foldl_append, List.foldl_cons, List.foldl_nil, ih]
    have hcond : bit_is_set n K = n.testBit K := bit_is_set_eq n K
    rw [hcond]
    have hmp : n % 2 ^ (K + 1) = n % 2 ^ K + 2 ^ K * (n / 2 ^ K % 2) := Nat.mod_pow_succ
    cases htb : n.testBit K
    · have hz : n / 2 ^ K % 2 = 0 := by
        rw [Nat.testBit_to_div_mod] at htb
        simpa using htb
      rw [hz] at hmp
      rw [if_neg (by simp), show n % 2 ^ (K + 1) = n % 2 ^ K by omega]
    · have ho : n / 2 ^ K % 2 = 1 := by
        rw [Nat.testBit_to_div_mod] at htb
        simpa using htb
      rw [ho] at hmp
      rw [if_pos rfl, folding_constants_fwdSpec W Poly hW8 hW hP K,
        clmulF_iterate W Poly hW1 hW hP _ _ (stepF_iterate_lt hP _ hstate),
        ← Function.iterate_add_apply,
        show 8 * 2 ^ K + 8 * (n % 2 ^ K) = 8 * (n % 2 ^ (K + 1)) by omega]

theorem process_zero_bytes_spec (W Poly : Nat) (RefIn : Bool) (hW8 : 8 ≤ W) (hW : W ≤ 64)
    (hP : Poly < 2 ^ W) (state n : Nat) (hstate : state < 2 ^ W) (hn : n < 2 ^ 64) :
    process_zero_bytes_fn_impl W Poly RefIn state n =
      (if RefIn then (stepR (reflect Poly W))^[8 * n] state
        else (stepF W Poly)^[8 * n] state) := by
  unfold process_zero_bytes_fn_impl
  rw [if_neg (by omega)]
  cases RefIn
  · simp only [Bool.false_eq_true, if_false]
    unfold process_zero_bytes_core
    rw [pzb_core_fwdSpec W Poly hW8 hW hP state n hstate 64, Nat.mod_eq_of_lt hn]
  · simp only [if_true]
    unfold process_zero_bytes_core
    rw [pzb_core_reflSpec W Poly hW8 hW state n hstate 64, Nat.mod_eq_of_lt hn]

/-! ### Zero bytes under the byte-step semantics -/

theorem crcRef_zeros_refl (R : Nat) : ∀ (n : Nat) (s : Nat),
    (List.replicate n 0).foldl (byteStepR R) s = (stepR R)^[8 * n] s := by
  intro n
  induction n with
  | zero => intro s; simp
  | succ n ih =>
    intro s
    rw [List.replicate_succ, List.foldl_cons, ih]
    show (stepR R)^[8 * n] ((stepR R)^[8] (s ^^^ 0 % 256)) = _
    rw [show (0 : Nat) % 256 = 0 from rfl, Nat.xor_zero, ← Function.iterate_add_apply,
      show 8 * n + 8 = 8 * (n + 1) by ring]

theorem crcRef_zeros_fwd (W Poly : Nat) : ∀ (n : Nat) (s : Nat),
    (List.replicate n 0).foldl (byteStepF W Poly) s = (stepF W Poly)^[8 * n] s := by
  intro n
  induction n with
  | zero => intro s; simp
  | succ n ih =>
    intro s
    rw [List.replicate_succ, List.foldl_cons, ih]
    show (stepF W Poly)^[8 * n] ((stepF W Poly)^[8] (s ^^^ (0 % 256) <<< (W - 8))) = _
    rw [show (0 : Nat) % 256 = 0 from rfl, Nat.zero_shiftLeft, Nat.xor_zero,
      ← Function.iterate_add_apply, show 8 * n + 8 = 8 * (n + 1) by ring]

/-! ### Driver-level bounds and specs -/

/-- The defaulted `operator==` of `zcrc::crc` (zcrc.hpp line 636): bitwise
equality of the stored registers. -/
def crc_eq (lhs rhs : Nat) : Bool :=
  lhs == rhs

/-- The number of low register bits that can be nonzero in an observable
state: `W` for reflected parametrizations and for `W ≥ 8`, and `8` (the
lifted width, with the value left-aligned) for non-reflected `W < 8`. -/
def sigWidth (P : CrcParams) : Nat :=
  if P.refin then P.width else effWidth P

theorem effWidth_ge8 (P : CrcParams) : 8 ≤ effWidth P := by
  unfold effWidth
  split
  · exact le_rfl
  · omega

theorem effWidth_le64 (P : CrcParams) (h : P.width ≤ 64) : effWidth P ≤ 64 := by
  unfold effWidth
  split
  · norm_num
  · exact h

theorem width_le_effWidth (P : CrcParams) : P.width ≤ effWidth P := by
  unfold effWidth
  split
  · omega
  · exact le_rfl

theorem effPoly_lt (P : CrcParams) (hp : P.poly < 2 ^ P.width) :
    effPoly P < 2 ^ effWidth P := by
  unfold effPoly effWidth
  rcases Decidable.em (P.width < 8) with h | h
  · rw [if_pos h, if_pos h, Nat.shiftLeft_eq]
    calc P.poly * 2 ^ (8 - P.width) < 2 ^ P.width * 2 ^ (8 - P.width) :=
          (Nat.mul_lt_mul_right (Nat.pos_pow_of_pos _ (by norm_num))).mpr hp
      _ = 2 ^ 8 := by rw [← pow_add]; congr 1; omega
  · rw [if_neg h, if_neg h]
    exact hp

theorem initReg_lt (P : CrcParams) (hP : P.Valid) : initReg P < 2 ^ effWidth P := by
  obtain ⟨h1, h64, hp, hi, hx⟩ := hP
  have h8 : (2 : Nat) ^ 8 ≤ 2 ^ effWidth P :=
    Nat.pow_le_pow_right (by norm_num) (effWidth_ge8 P)
  have hWe : (2 : Nat) ^ P.width ≤ 2 ^ effWidth P :=
    Nat.pow_le_pow_right (by norm_num) (width_le_effWidth P)
  unfold initReg
  cases hr : P.refin
  · simp only [Bool.false_eq_true, if_false]
    rcases Decidable.em (P.width < 8) with h | h
    · rw [if_pos h, Nat.shiftLeft_eq]
      refine lt_of_lt_of_le ?_ h8
      calc P.init * 2 ^ (8 - P.width) < 2 ^ P.width * 2 ^ (8 - P.width) :=
            (Nat.mul_lt_mul_right (Nat.pos_pow_of_pos _ (by norm_num))).mpr hi
        _ = 2 ^ 8 := by rw [← pow_add]; congr 1; omega
    · rw [if_neg h]
      exact lt_of_lt_of_le hi hWe
  · simp only [if_true]
    exact lt_of_lt_of_le (reflect_lt P.init P.width h64) hWe

theorem crcRef_lt (W Poly : Nat) (RefIn : Bool) (hW8 : 8 ≤ W) (hW : W ≤ 64)
    (hP : Poly < 2 ^ W) (s : Nat) (hs : s < 2 ^ W) (bs : List Nat) :
    crcRef W Poly RefIn s bs < 2 ^ W := by
  cases RefIn
  · show bs.foldl (byteStepF W Poly) s < 2 ^ W
    exact foldl_byteStepF_lt hP hW8 bs hs
  · show bs.foldl (byteStepR (reflect Poly W)) s < 2 ^ W
    exact foldl_byteStepR_lt hW8 (reflect_lt Poly W hW) bs hs

theorem crcRef_append (W Poly : Nat) (RefIn : Bool) (s : Nat) (X Y : List Nat) :
    crcRef W Poly RefIn s (X ++ Y) = crcRef W Poly RefIn (crcRef W Poly RefIn s X) Y := by
  cases RefIn
  · show (X ++ Y).foldl (byteStepF W Poly) s = _
    rw [List.foldl_append]
    rfl
  · show (X ++ Y).foldl (byteStepR (reflect Poly W)) s = _
    rw [List.foldl_append]
    rfl

theorem crcRef_affine (W Poly : Nat) (RefIn : Bool) (u : Nat) (Y : List Nat) :
    crcRef W Poly RefIn u Y =
      (if RefIn then (stepR (reflect Poly W))^[8 * Y.length] u
        else (stepF W Poly)^[8 * Y.length] u) ^^^ crcRef W Poly RefIn 0 Y := by
  cases RefIn
  · show Y.foldl (byteStepF W Poly) u = _ ^^^ Y.foldl (byteStepF W Poly) 0
    rw [crcRefF_decomp, crcRefF_decomp W Poly Y 0, stepF_iterate_zero, Nat.zero_xor]
    rfl
  · show Y.foldl (byteStepR (reflect Poly W)) u = _ ^^^ Y.foldl (byteStepR (reflect Poly W)) 0
    rw [crcRefR_decomp, crcRefR_decomp (reflect Poly W) Y 0, stepR_iterate_zero, Nat.zero_xor]
    rfl

theorem processSlice_crcRef (P : CrcParams) (hP : P.Valid) (N : Nat) (hN : 1 ≤ N)
    (hN64 : N ≤ 2 ^ 64) (reg : Nat) (hreg : reg < 2 ^ effWidth P) (bytes : List Nat) :
    processSlice P N reg bytes = crcRef (effWidth P) (effPoly P) P.refin reg bytes := by
  obtain ⟨h1, h64, hp, hi, hx⟩ := hP
  unfold processSlice
  rw [process_slice_spec (effWidth P) (effPoly P) P.refin N reg bytes (effWidth_ge8 P)
    (effWidth_le64 P h64) (effPoly_lt P hp) hN hN64 hreg]
  exact Nat.mod_eq_of_lt (crcRef_lt (effWidth P) (effPoly P) P.refin (effWidth_ge8 P)
    (effWidth_le64 P h64) (effPoly_lt P hp) reg hreg bytes)

theorem processZeroBytes_eq (P : CrcParams) (hP : P.Valid) (reg n : Nat)
    (hreg : reg < 2 ^ effWidth P) (hn : n < 2 ^ 64) :
    processZeroBytes P reg n =
      (if P.refin then (stepR (reflect (effPoly P) (effWidth P)))^[8 * n] reg
        else (stepF (effWidth P) (effPoly P))^[8 * n] reg) := by
  obtain ⟨h1, h64, hp, hi, hx⟩ := hP
  unfold processZeroBytes
  have hbridge : process_zero_bytes_fn_impl P.width P.poly P.refin reg n =
      process_zero_bytes_fn_impl (effWidth P) (effPoly P) P.refin reg n := by
    unfold process_zero_bytes_fn_impl effWidth effPoly
    rcases Decidable.em (P.width < 8) with h | h
    · simp [h]
    · simp [h]
  rw [hbridge, process_zero_bytes_spec (effWidth P) (effPoly P) P.refin (effWidth_ge8 P)
    (effWidth_le64 P h64) (effPoly_lt P hp) reg n hreg hn]

theorem land_bottom_lt {D W : Nat} (hW : 0 < W) (hWD : W ≤ D) (a : Nat) :
    a &&& bottom_n_mask D W < 2 ^ W := by
  rw [land_mask_eq_mod hW hWD]
  exact Nat.mod_lt _ (Nat.pos_pow_of_pos _ (by norm_num))

theorem processSlice_lt (P : CrcParams) (h64 : P.width ≤ 64) (N reg : Nat)
    (bytes : List Nat) : processSlice P N reg bytes < 2 ^ effWidth P := by
  simp only [processSlice, process_fn_impl_slice]
  exact land_bottom_lt (by have := effWidth_ge8 P; omega)
    (le_digitsOf (effWidth P) (effWidth_le64 P h64)) _

theorem stepR_iterate_shrink {R W : Nat} (hR : R < 2 ^ W) :
    ∀ (k : Nat) (v : Nat), v < 2 ^ (W + k) → (stepR R)^[k] v < 2 ^ W := by
  intro k
  induction k with
  | zero => intro v hv; simpa using hv
  | succ k ih =>
    intro v hv
    rw [Function.iterate_succ_apply]
    apply ih
    unfold stepR
    apply Nat.xor_lt_two_pow
    · have hv2 : v < 2 ^ 1 * 2 ^ (W + k) := by
        calc v < 2 ^ (W + (k + 1)) := hv
          _ = 2 ^ 1 * 2 ^ (W + k) := by rw [← pow_add]; congr 1; omega
      rw [Nat.shiftRight_eq_div_pow]
      exact Nat.div_lt_of_lt_mul hv2
    · cases v.testBit 0
      · exact Nat.pos_pow_of_pos _ (by norm_num)
      · exact lt_of_lt_of_le hR (Nat.pow_le_pow_right (by norm_num) (by omega))

theorem byteStepR_shrink {R W : Nat} (hR : R < 2 ^ W) {v : Nat} (hv : v < 2 ^ W) (b : Nat) :
    byteStepR R v b < 2 ^ W := by
  unfold byteStepR
  apply stepR_iterate_shrink hR 8
  apply Nat.xor_lt_two_pow
  · exact lt_of_lt_of_le hv (Nat.pow_le_pow_right (by norm_num) (by omega))
  · calc b % 256 < 2 ^ 8 := Nat.mod_lt _ (by norm_num)
      _ ≤ 2 ^ (W + 8) := Nat.pow_le_pow_right (by norm_num) (by omega)

theorem foldl_byteStepR_shrink {R W : Nat} (hR : R < 2 ^ W) :
    ∀ (bs : List Nat) {v : Nat}, v < 2 ^ W → bs.foldl (byteStepR R) v < 2 ^ W := by
  intro bs
  induction bs with
  | nil => intro v hv; exact hv
  | cons b t ih =>
    intro v hv
    rw [List.foldl_cons]
    exact ih (byteStepR_shrink hR hv b)

theorem reflect_narrow_lt :
    ∀ W < 8, 0 < W → ∀ Poly < 2 ^ W, reflect (Poly <<< (8 - W)) 8 < 2 ^ W := by
  decide

theorem refl_poly_lt_sig (P : CrcParams) (hP : P.Valid) :
    reflect (effPoly P) (effWidth P) < 2 ^ P.width := by
  obtain ⟨h1, h64, hp, hi, hx⟩ := hP
  unfold effPoly effWidth
  rcases Decidable.em (P.width < 8) with h | h
  · rw [if_pos h, if_pos h]
    exact reflect_narrow_lt P.width h h1 P.poly hp
  · rw [if_neg h, if_neg h]
    exact reflect_lt P.poly P.width h64

theorem sigWidth_le_effWidth (P : CrcParams) : sigWidth P ≤ effWidth P := by
  unfold sigWidth
  split
  · exact width_le_effWidth P
  · exact le_rfl

theorem initReg_lt_sig (P : CrcParams) (hP : P.Valid) : initReg P < 2 ^ sigWidth P := by
  obtain ⟨h1, h64, hp, hi, hx⟩ := hP
  unfold initReg sigWidth
  cases hr : P.refin
  · simp only [Bool.false_eq_true, if_false]
    rcases Decidable.em (P.width < 8) with h | h
    · rw [if_pos h, Nat.shiftLeft_eq]
      refine lt_of_lt_of_le ?_ (Nat.pow_le_pow_right (by norm_num) (effWidth_ge8 P))
      calc P.init * 2 ^ (8 - P.width) < 2 ^ P.width * 2 ^ (8 - P.width) :=
            (Nat.mul_lt_mul_right (Nat.pos_pow_of_pos _ (by norm_num))).mpr hi
        _ = 2 ^ 8 := by rw [← pow_add]; congr 1; omega
    · rw [if_neg h]
      exact lt_of_lt_of_le hi (Nat.pow_le_pow_right (by norm_num) (width_le_effWidth P))
  · simp only [if_true]
    exact reflect_lt P.init P.width h64

theorem processSlice_lt_sig (P : CrcParams) (hP : P.Valid) (N : Nat) (hN : 1 ≤ N)
    (hN64 : N ≤ 2 ^ 64) (reg : Nat) (hreg : reg < 2 ^ sigWidth P) (bytes : List Nat) :
    processSlice P N reg bytes < 2 ^ sigWidth P := by
  rcases hr : P.refin
  · have hsig : sigWidth P = effWidth P := by unfold sigWidth; simp [hr]
    rw [hsig]
    exact processSlice_lt P hP.2.1 N reg bytes
  · have hsig : sigWidth P = P.width := by unfold sigWidth; simp [hr]
    rw [hsig] at hreg ⊢
    have hregE : reg < 2 ^ effWidth P :=
      lt_of_lt_of_le hreg (Nat.pow_le_pow_right (by norm_num) (width_le_effWidth P))
    rw [processSlice_crcRef P hP N hN hN64 reg hregE bytes, hr]
    show bytes.foldl (byteStepR (reflect (effPoly P) (effWidth P))) reg < 2 ^ P.width
    exact foldl_byteStepR_shrink (refl_poly_lt_sig P hP) bytes hreg

/-! ### The claims -/

set_option maxRecDepth 10000

/-- C1: refuted (code bug).  The parallel driver is not equivalent to the
sequential kernel: on the ten-byte input `[1, …, 10]` with `T = 4` threads,
`parallel<slice_by<1>>` over crc32c from the initial state yields register
2830260065 while the sequential kernel yields 1306928278.  The driver
computes its first chunk boundary with `len % chunk_length` (`chunk_length
= len / T`) instead of `len % T`, so bytes `[8, 10)` are never processed:
the parallel result equals the sequential result over the first 8 bytes
extended by two zero bytes. -/
theorem C1_parallel_partition_bug :
    processParallel crc32c 1 4 (initReg crc32c) [1, 2, 3, 4, 5, 6, 7, 8, 9, 10] =
        some 2830260065 ∧
      processSlice crc32c 1 (initReg crc32c) [1, 2, 3, 4, 5, 6, 7, 8, 9, 10] = 1306928278 ∧
      (2830260065 : Nat) ≠ 1306928278 ∧
      processZeroBytes crc32c
        (processSlice crc32c 1 (initReg crc32c) [1, 2, 3, 4, 5, 6, 7, 8]) 2 = 2830260065 :=
  ⟨by decide, by decide, by decide, by decide⟩

/-- C2: refuted (code bug).  `process` under `parallel<A>` is not total: for
a span of length 1 and hardware concurrency `T = 2` the driver computes
`len % (len / T) = 1 % 0`, a division by zero (modelled as `none`). -/
theorem C2_parallel_division_by_zero :
    processParallel crc32c 1 2 (initReg crc32c) [0x41] = none := by
  decide

/-- C3: for every valid parametrization, every slice count `1 ≤ N ≤ 2^64`
(the C++ `size_t` range) and every byte span, `compute` with `slice_by<N>`
equals `compute` with `slice_by<1>`. -/
theorem C3_slice_independence (P : CrcParams) (N : Nat) (bytes : List Nat) (hP : P.Valid)
    (hN : 1 ≤ N) (hN64 : N ≤ 2 ^ 64) :
    compute P N bytes = compute P 1 bytes := by
  unfold compute
  rw [processSlice_crcRef P hP N hN hN64 (initReg P) (initReg_lt P hP) bytes,
    processSlice_crcRef P hP 1 (by norm_num) (by norm_num) (initReg P) (initReg_lt P hP) bytes]

theorem C3_witness :
    CrcParams.Valid crc32c ∧ 1 ≤ 3 ∧ (3 : Nat) ≤ 2 ^ 64 ∧
      compute crc32c 3 [10, 20, 30, 40, 50] = compute crc32c 1 [10, 20, 30, 40, 50] :=
  ⟨by unfold CrcParams.Valid; decide, by decide, by decide,
    C3_slice_independence crc32c 3 [10, 20, 30, 40, 50]
      (by unfold CrcParams.Valid; decide) (by decide) (by decide)⟩

/-- C4: for every valid parametrization, every observable register and every
count `n < 2^64`, `process_zero_bytes` returns exactly the state obtained by
processing `n` zero bytes with `slice_by<1>`. -/
theorem C4_process_zero_bytes (P : CrcParams) (s n : Nat) (hP : P.Valid)
    (hs : s < 2 ^ effWidth P) (hn : n < 2 ^ 64) :
    processZeroBytes P s n = processSlice P 1 s (List.replicate n 0) := by
  rw [processZeroBytes_eq P hP s n hs hn,
    processSlice_crcRef P hP 1 (by norm_num) (by norm_num) s hs (List.replicate n 0)]
  cases hr : P.refin
  · simp only [Bool.false_eq_true, if_false]
    show (stepF (effWidth P) (effPoly P))^[8 * n] s =
      (List.replicate n 0).foldl (byteStepF (effWidth P) (effPoly P)) s
    rw [crcRef_zeros_fwd]
  · simp only [if_true]
    show (stepR (reflect (effPoly P) (effWidth P)))^[8 * n] s =
      (List.replicate n 0).foldl (byteStepR (reflect (effPoly P) (effWidth P))) s
    rw [crcRef_zeros_refl]

theorem C4_witness :
    CrcParams.Valid crc32c ∧ initReg crc32c < 2 ^ effWidth crc32c ∧ (3 : Nat) < 2 ^ 64 ∧
      processZeroBytes crc32c (initReg crc32c) 3 =
        processSlice crc32c 1 (initReg crc32c) (List.replicate 3 0) :=
  ⟨by unfold CrcParams.Valid; decide, by decide, by decide,
    C4_process_zero_bytes crc32c (initReg crc32c) 3
      (by unfold CrcParams.Valid; decide) (by decide) (by decide)⟩

/-- C5: the combine law.  For every valid parametrization and every split
`B = X ++ Y` (with `|Y|` in the `size_t` range),
`finalize (combine (process_zero_bytes (process init X) |Y|) (process zero Y))`
equals `compute (X ++ Y)`; `combine` is the bitwise XOR of the registers. -/
theorem C5_combine_law (P : CrcParams) (X Y : List Nat) (hP : P.Valid)
    (hY : Y.length < 2 ^ 64) :
    finalize P (combine
        (processZeroBytes P (processSlice P 8 (initReg P) X) Y.length)
        (processSlice P 8 zeroReg Y)) =
      computeDefault P (X ++ Y) := by
  obtain ⟨h1, h64, hp, hi, hx⟩ := hP
  have hPV : P.Valid := ⟨h1, h64, hp, hi, hx⟩
  have h8le : (1 : Nat) ≤ 8 := by norm_num
  have h864 : (8 : Nat) ≤ 2 ^ 64 := by norm_num
  have hinit := initReg_lt P hPV
  have ha := processSlice_crcRef P hPV 8 h8le h864 (initReg P) hinit X
  have haLt : crcRef (effWidth P) (effPoly P) P.refin (initReg P) X < 2 ^ effWidth P :=
    crcRef_lt _ _ _ (effWidth_ge8 P) (effWidth_le64 P h64) (effPoly_lt P hp) _ hinit X
  have hzero : zeroReg < 2 ^ effWidth P := Nat.pos_pow_of_pos _ (by norm_num)
  have hb := processSlice_crcRef P hPV 8 h8le h864 zeroReg hzero Y
  unfold computeDefault compute
  congr 1
  rw [ha, hb, processZeroBytes_eq P hPV _ Y.length haLt hY,
    processSlice_crcRef P hPV 8 h8le h864 (initReg P) hinit (X ++ Y),
    crcRef_append,
    crcRef_affine (effWidth P) (effPoly P) P.refin
      (crcRef (effWidth P) (effPoly P) P.refin (initReg P) X) Y]
  rfl

theorem C5_witness :
    CrcParams.Valid crc32c ∧ ([3, 4, 5] : List Nat).length < 2 ^ 64 ∧
      finalize crc32c (combine
          (processZeroBytes crc32c (processSlice crc32c 8 (initReg crc32c) [1, 2])
            ([3, 4, 5] : List Nat).length)
          (processSlice crc32c 8 zeroReg [3, 4, 5])) =
        computeDefault crc32c ([1, 2] ++ [3, 4, 5]) :=
  ⟨by unfold CrcParams.Valid; decide, by decide,
    C5_combine_law crc32c [1, 2] [3, 4, 5] (by unfold CrcParams.Valid; decide) (by decide)⟩

/-- C6: associativity of partial processing under the default algorithm:
for every valid parametrization, every observable register and every pair
of spans, `process (process s X) Y = process s (X ++ Y)`. -/
theorem C6_process_concatenation (P : CrcParams) (s : Nat) (X Y : List Nat) (hP : P.Valid)
    (hs : s < 2 ^ effWidth P) :
    processSlice P 8 (processSlice P 8 s X) Y = processSlice P 8 s (X ++ Y) := by
  obtain ⟨h1, h64, hp, hi, hx⟩ := hP
  have hPV : P.Valid := ⟨h1, h64, hp, hi, hx⟩
  have h8le : (1 : Nat) ≤ 8 := by norm_num
  have h864 : (8 : Nat) ≤ 2 ^ 64 := by norm_num
  have h1s := processSlice_crcRef P hPV 8 h8le h864 s hs X
  have hlt : crcRef (effWidth P) (effPoly P) P.refin s X < 2 ^ effWidth P :=
    crcRef_lt _ _ _ (effWidth_ge8 P) (effWidth_le64 P h64) (effPoly_lt P hp) s hs X
  rw [h1s, processSlice_crcRef P hPV 8 h8le h864 _ hlt Y,
    processSlice_crcRef P hPV 8 h8le h864 s hs (X ++ Y), crcRef_append]

theorem C6_witness :
    CrcParams.Valid crc32c ∧ initReg crc32c < 2 ^ effWidth crc32c ∧
      processSlice crc32c 8 (processSlice crc32c 8 (initReg crc32c) [1, 2, 3]) [4, 5] =
        processSlice crc32c 8 (initReg crc32c) ([1, 2, 3] ++ [4, 5]) :=
  ⟨by unfold CrcParams.Valid; decide, by decide,
    C6_process_concatenation crc32c (initReg crc32c) [1, 2, 3] [4, 5]
      (by unfold CrcParams.Valid; decide) (by decide)⟩

/-- C7: refuted (code bug).  For CRC-10/GSM (`W = 10`, `XorOut = 0x3FF`)
the checksum of `"123"` is 0xE8, yet appending it to the message in any of
the four plausible two-byte serializations leaves `is_valid` false: the
validator's residue streams `W = 10` zero bits through the register
instead of the `8⌈W/8⌉ = 16` bits the appended serialization shifts in, so
the comparison register never matches whenever `W mod 8 ≠ 0` and
`XorOut ≠ 0`.  As a control, CRC-16/ARC (`W mod 8 = 0`) validates its
little-endian serialization. -/
theorem C7_is_valid_residue_bug :
    computeDefault crc10_gsm [0x31, 0x32, 0x33] = 0xE8 ∧
      isValidBytes crc10_gsm [0x31, 0x32, 0x33, 0x00, 0xE8] = false ∧
      isValidBytes crc10_gsm [0x31, 0x32, 0x33, 0xE8, 0x00] = false ∧
      isValidBytes crc10_gsm [0x31, 0x32, 0x33, 0x3A, 0x00] = false ∧
      isValidBytes crc10_gsm [0x31, 0x32, 0x33, 0x00, 0x3A] = false ∧
      isValidBytes crc16_arc [0x31, 0x32, 0x33, 0x04, 0xBA] = true :=
  ⟨by decide, by decide, by decide, by decide, by decide, by decide⟩

/-- C8: the three catalogued check values on the standard input
`"123456789"`: crc32c 0xE3069283, crc16_modbus 0x4B37, crc64_xz
0x995DC9BBDF1939FA, computed as finalize ∘ process with the default
`slice_by<8>` from the initialized state. -/
theorem C8_check_values :
    computeDefault crc32c checkInput = 0xE3069283 ∧
      computeDefault crc16_modbus checkInput = 0x4B37 ∧
      computeDefault crc64_xz checkInput = 0x995DC9BBDF1939FA :=
  ⟨by decide, by decide, by decide⟩

/-- C9: state equality compares exactly the significant register bits: two
states produced by `process` whose registers agree on those bits are equal
under the defaulted `operator==`; in particular CRC-10/ATM over
`"\x00\x00"` and over `"\x06\x33"` yields states that compare equal. -/
theorem C9_equality_significant_bits (P : CrcParams) (N1 N2 : Nat) (X Y : List Nat)
    (hP : P.Valid) (hN1 : 1 ≤ N1) (hN164 : N1 ≤ 2 ^ 64) (hN2 : 1 ≤ N2)
    (hN264 : N2 ≤ 2 ^ 64)
    (hagree : processSlice P N1 (initReg P) X % 2 ^ sigWidth P =
      processSlice P N2 (initReg P) Y % 2 ^ sigWidth P) :
    crc_eq (processSlice P N1 (initReg P) X) (processSlice P N2 (initReg P) Y) = true ∧
      crc_eq (processSlice crc10_atm 8 (initReg crc10_atm) [0x00, 0x00])
        (processSlice crc10_atm 8 (initReg crc10_atm) [0x06, 0x33]) = true := by
  constructor
  · have hx := processSlice_lt_sig P hP N1 hN1 hN164 (initReg P) (initReg_lt_sig P hP) X
    have hy := processSlice_lt_sig P hP N2 hN2 hN264 (initReg P) (initReg_lt_sig P hP) Y
    rw [Nat.mod_eq_of_lt hx, Nat.mod_eq_of_lt hy] at hagree
    unfold crc_eq
    exact beq_iff_eq.mpr hagree
  · decide

theorem C9_witness :
    CrcParams.Valid crc10_atm ∧ (1 : Nat) ≤ 8 ∧ (8 : Nat) ≤ 2 ^ 64 ∧
      processSlice crc10_atm 8 (initReg crc10_atm) [0x00, 0x00] % 2 ^ sigWidth crc10_atm =
        processSlice crc10_atm 8 (initReg crc10_atm) [0x06, 0x33] % 2 ^ sigWidth crc10_atm ∧
      crc_eq (processSlice crc10_atm 8 (initReg crc10_atm) [0x00, 0x00])
        (processSlice crc10_atm 8 (initReg crc10_atm) [0x06, 0x33]) = true :=
  ⟨by unfold CrcParams.Valid; decide, by decide, by decide, by decide,
    (C9_equality_significant_bits crc10_atm 8 8 [0x00, 0x00] [0x06, 0x33]
      (by unfold CrcParams.Valid; decide) (by decide) (by decide) (by decide) (by decide)
      (by decide)).1⟩

/-- C10: the masking invariant.  Every observable state keeps all register
bits above the significant width clear (`W` bits for reflected
parametrizations and for `W ≥ 8`, and `8` left-aligned bits for
non-reflected `W < 8`): this holds for the initialized state, the
zero-initialized state, and is preserved by `process` (any slice count),
by `process_zero_bytes`, and by `combine`. -/
theorem C10_masking_invariant (P : CrcParams) (N : Nat) (bytes : List Nat) (s n t1 t2 : Nat)
    (hP : P.Valid) (hN : 1 ≤ N) (hN64 : N ≤ 2 ^ 64) (hs : s < 2 ^ sigWidth P)
    (hn : n < 2 ^ 64) (ht1 : t1 < 2 ^ sigWidth P) (ht2 : t2 < 2 ^ sigWidth P) :
    initReg P < 2 ^ sigWidth P ∧ zeroReg < 2 ^ sigWidth P ∧
      processSlice P N s bytes < 2 ^ sigWidth P ∧
      processZeroBytes P s n < 2 ^ sigWidth P ∧
      combine t1 t2 < 2 ^ sigWidth P := by
  refine ⟨initReg_lt_sig P hP, Nat.pos_pow_of_pos _ (by norm_num),
    processSlice_lt_sig P hP N hN hN64 s hs bytes, ?_, Nat.xor_lt_two_pow ht1 ht2⟩
  have hsE : s < 2 ^ effWidth P :=
    lt_of_lt_of_le hs (Nat.pow_le_pow_right (by norm_num) (sigWidth_le_effWidth P))
  rw [processZeroBytes_eq P hP s n hsE hn]
  cases hr : P.refin
  · simp only [Bool.false_eq_true, if_false]
    have hsig : sigWidth P = effWidth P := by unfold sigWidth; simp [hr]
    rw [hsig]
    exact stepF_iterate_lt (effPoly_lt P hP.2.2.1) _ (hsig ▸ hs)
  · simp only [if_true]
    have hsig : sigWidth P = P.width := by unfold sigWidth; simp [hr]
    rw [hsig]
    exact stepR_iterate_lt (refl_poly_lt_sig P hP) _ (hsig ▸ hs)

theorem C10_witness :
    CrcParams.Valid crc32c ∧ (1 : Nat) ≤ 8 ∧ (8 : Nat) ≤ 2 ^ 64 ∧
      (0 : Nat) < 2 ^ sigWidth crc32c ∧ (5 : Nat) < 2 ^ 64 ∧
      (1 : Nat) < 2 ^ sigWidth crc32c ∧ (2 : Nat) < 2 ^ sigWidth crc32c ∧
      (initReg crc32c < 2 ^ sigWidth crc32c ∧ zeroReg < 2 ^ sigWidth crc32c ∧
        processSlice crc32c 8 0 [1, 2] < 2 ^ sigWidth crc32c ∧
        processZeroBytes crc32c 0 5 < 2 ^ sigWidth crc32c ∧
        combine 1 2 < 2 ^ sigWidth crc32c) :=
  ⟨by unfold CrcParams.Valid; decide, by decide, by decide, by decide, by decide, by decide,
    by decide,
    C10_masking_invariant crc32c 8 [1, 2] 0 5 1 2 (by unfold CrcParams.Valid; decide)
      (by decide) (by decide) (by decide) (by decide) (by decide) (by decide)⟩

end Zcrc